import Mathlib

/-!
Verification development for the wikipedia-text extraction pipeline.

The development shallowly embeds the three source modules:
* the text normalizer / tokenizer (module with normalize, tokenize, simplify,
  to_normalized, to_tokens);
* the ZIM binary reader inside the extractor (process);
* the HTML-to-semantic-XML pipeline (decode, flatten, clean, encode, parse).

Python strings are modelled as List Char, byte strings as List Nat.
Operations that can raise a Python exception are modelled with Option:
a result of none corresponds to the Python code raising.
-/

namespace WT

/-! ## Whitespace predicates

Python has two distinct whitespace notions in play:
* the regex character class from the cleaner's whitespace pattern and the
  argument-less str.strip family, which match all Unicode whitespace
  (this set, pyWhite, is the one Python uses for str.isspace);
* the extractor's explicit character class from its compiled pattern
  (space, tab, form feed, carriage return, line feed, U+200B), rWhite.
-/

/-- Unicode whitespace as matched by the regex escape for whitespace and by
argument-less str.strip: 09-0D, 1C-1F, 20, 85, A0, 1680, 2000-200A,
2028, 2029, 202F, 205F, 3000. -/
def pyWhite (c : Char) : Bool :=
  let n := c.toNat
  (9 ≤ n && n ≤ 13) || (28 ≤ n && n ≤ 31) || n == 32 || n == 0x85 || n == 0xa0 ||
    n == 0x1680 || (0x2000 ≤ n && n ≤ 0x200a) || n == 0x2028 || n == 0x2029 ||
    n == 0x202f || n == 0x205f || n == 0x3000

/-- The extractor's whitespace class: space, tab, form feed, CR, LF, U+200B. -/
def rWhite (c : Char) : Bool :=
  c == ' ' || c == '\t' || c == '\x0c' || c == '\r' || c == '\n' || c == '\u200b'

/-- Replace every maximal run of characters matched by ws with a single space
(the sub-with-space operation applied by both modules).  The flag records
whether the scan is inside a whitespace run (the run already emitted its
space). -/
def collapseAux (ws : Char → Bool) : Bool → List Char → List Char
  | _, [] => []
  | inRun, c :: cs =>
    if ws c then
      (if inRun then collapseAux ws true cs else ' ' :: collapseAux ws true cs)
    else c :: collapseAux ws false cs

/-- Replace every maximal run of characters matched by ws with a single
space. -/
def collapse (ws : Char → Bool) (l : List Char) : List Char := collapseAux ws false l

/-- Python str.lstrip with no arguments. -/
def lstrip (ws : Char → Bool) (l : List Char) : List Char := l.dropWhile ws

/-- Python str.rstrip with no arguments. -/
def rstrip (ws : Char → Bool) (l : List Char) : List Char :=
  (l.reverse.dropWhile ws).reverse

/-- Python str.strip with no arguments. -/
def strip (ws : Char → Bool) (l : List Char) : List Char :=
  lstrip ws (rstrip ws l)

/-! ## The normalizer (clean module) -/

/-- The cleaner's override dictionary, NORMALIZED_OVERRIDDEN_CHARACTERS,
transcribed verbatim from the source (an association list standing for the
Python dict).  Five keys are single characters; the remaining keys are
two-character sequences (UTF-8 text that was decoded with a wrong codec when
the source file was written), which can never compare equal to the
one-character string looked up by normalize_char. -/
def NORMALIZED_OVERRIDDEN_CHARACTERS : List (String × String) := [
  ("\u00ab", "\u0022"),
  ("\u00bb", "\u0022"),
  ("\u2030", "\u0025"),
  ("\u2031", "\u0025"),
  ("\u2191", ""),
  ("\u0623\u20ac", "\u0623\u20ac"),
  ("\u0623\u00a0", "\u0623\u00a0"),
  ("\u0623\u02c6", "\u0623\u02c6"),
  ("\u0623\u00a8", "\u0623\u00a8"),
  ("\u0623\u0152", "\u0623\u0152"),
  ("\u0623\u00ac", "\u0623\u00ac"),
  ("\u0623\u2019", "\u0623\u2019"),
  ("\u0623\u00b2", "\u0623\u00b2"),
  ("\u0623\u2122", "\u0623\u2122"),
  ("\u0623\u00b9", "\u0623\u00b9"),
  ("\u0623\u201a", "\u0623\u201a"),
  ("\u0623\u00a2", "\u0623\u00a2"),
  ("\u0623\u0679", "\u0623\u0679"),
  ("\u0623\u06be", "\u0623\u06be"),
  ("\u0623\u0698", "\u0623\u0698"),
  ("\u0623\u00ae", "\u0623\u00ae"),
  ("\u0623\u201d", "\u0623\u201d"),
  ("\u0623\u00b4", "\u0623\u00b4"),
  ("\u0623\u203a", "\u0623\u203a"),
  ("\u0623\u00bb", "\u0623\u00bb"),
  ("\u0623\u067e", "\u0623\u067e"),
  ("\u0623\u060c", "\u0623\u060c"),
  ("\u0623\u2030", "\u0623\u2030"),
  ("\u0623\u00a9", "\u0623\u00a9"),
  ("\u0623\u0686", "\u0623\u0686"),
  ("\u0623\u00ad", "\u0623\u00ad"),
  ("\u0623\u201c", "\u0623\u201c"),
  ("\u0623\u00b3", "\u0623\u00b3"),
  ("\u0623\u0691", "\u0623\u0691"),
  ("\u0623\u061b", "\u0623\u061b"),
  ("\u0623\u200c", "\u0623\u200c"),
  ("\u0623\u00bd", "\u0623\u00bd"),
  ("\u0623\u201e", "\u0623\u201e"),
  ("\u0623\u00a4", "\u0623\u00a4"),
  ("\u0623\u2039", "\u0623\u2039"),
  ("\u0623\u00ab", "\u0623\u00ab"),
  ("\u0623\u0688", "\u0623\u0688"),
  ("\u0623\u00af", "\u0623\u00af"),
  ("\u0623\u2013", "\u0623\u2013"),
  ("\u0623\u00b6", "\u0623\u00b6"),
  ("\u0623\u0153", "\u0623\u0153"),
  ("\u0623\u00bc", "\u0623\u00bc"),
  ("\u0625\u00b8", "\u0625\u00b8"),
  ("\u0623\u061f", "\u0623\u061f"),
  ("\u0623\u2021", "\u0623\u2021"),
  ("\u0623\u00a7", "\u0623\u00a7"),
  ("\u0623\u0192", "\u0623\u0192"),
  ("\u0623\u00a3", "\u0623\u00a3"),
  ("\u0623\u2018", "\u0623\u2018"),
  ("\u0623\u00b1", "\u0623\u00b1"),
  ("\u0623\u2022", "\u0623\u2022"),
  ("\u0623\u00b5", "\u0623\u00b5")]

/-- The cleaner's 128-entry NORMALIZED_MAPPED_CHARACTERS table, transcribed
verbatim: control characters map to the empty string (HT to a space, LF to
itself), printable ASCII maps to itself, DEL to the empty string. -/
def NORMALIZED_MAPPED_CHARACTERS : List String :=
  ["", "", "", "", "", "", "", "",
   "", " ", "\n", "", "", "", "", "",
   "", "", "", "", "", "", "", "",
   "", "", "", "", "", "", "", "",
   " ", "!", "\"", "#", "$", "%", "&", "'",
   "(", ")", "*", "+", ",", "-", ".", "/",
   "0", "1", "2", "3", "4", "5", "6", "7",
   "8", "9", ":", ";", "<", "=", ">", "?",
   "@", "A", "B", "C", "D", "E", "F", "G",
   "H", "I", "J", "K", "L", "M", "N", "O",
   "P", "Q", "R", "S", "T", "U", "V", "W",
   "X", "Y", "Z", "[", "\\", "]", "^", "_",
   "\x60", "a", "b", "c", "d", "e", "f", "g",
   "h", "i", "j", "k", "l", "m", "n", "o",
   "p", "q", "r", "s", "t", "u", "v", "w",
   "x", "y", "z", "\x7b", "|", "\x7d", "~", ""]

/-- Python dict membership-then-index, specialised to the override table:
first matching key wins (the dict has no duplicate keys). -/
def dictLookup : List (String × String) → String → Option String
  | [], _ => none
  | (k, v) :: rest, s => if s = k then some v else dictLookup rest s

/-- unidecode_char from the cleaner.  The Unidecode data tables (loaded
lazily through a cache keyed by the codepoint's high bits) are abstracted
into the function argument tbl, mapping a codepoint to the table entry when
the section table exists and is long enough; a missing or short table yields
the empty string, exactly as the source returns an empty string in that
case.  The guards (ASCII passthrough, codepoints above 0xEFFFF, surrogates)
are the source's. -/
def unidecode_char (tbl : Nat → Option String) (c : Char) : List Char :=
  let cp := c.toNat
  if cp < 0x80 then [c]
  else if cp > 0xeffff then []
  else if 0xd800 ≤ cp ∧ cp ≤ 0xdfff then []
  else ((tbl cp).getD "").data

/-- Indexing NORMALIZED_MAPPED_CHARACTERS by a character's codepoint;
none models the IndexError Python would raise past position 127. -/
def mapAscii (c : Char) : Option (List Char) :=
  (NORMALIZED_MAPPED_CHARACTERS.get? c.toNat).map String.data

/-- The join of the per-character table images inside normalize_char
(the list comprehension over the unidecode expansion). -/
def mapAsciiAll : List Char → Option (List Char)
  | [] => some []
  | c :: cs =>
    match mapAscii c, mapAsciiAll cs with
    | some e, some rest => some (e ++ rest)
    | _, _ => none

/-- normalize_char from the cleaner: overrides first, otherwise every
character of the unidecode expansion is pushed through the 128-entry table. -/
def normalize_char (tbl : Nat → Option String) (c : Char) : Option (List Char) :=
  match dictLookup NORMALIZED_OVERRIDDEN_CHARACTERS (String.singleton c) with
  | some v => some v.data
  | none => mapAsciiAll (unidecode_char tbl c)

/-- The character-accumulation loop of normalize: every character's folding
appended in order. -/
def normChars (tbl : Nat → Option String) : List Char → Option (List Char)
  | [] => some []
  | c :: cs =>
    match normalize_char tbl c, normChars tbl cs with
    | some out, some rest => some (out ++ rest)
    | _, _ => none

/-- normalize from the cleaner: per-character folding, whitespace collapse,
then strip. -/
def normalize (tbl : Nat → Option String) (text : List Char) : Option (List Char) :=
  match normChars tbl text with
  | some r => some (strip pyWhite (collapse pyWhite r))
  | none => none


/-! ## The tokenizer (clean module)

The token pattern is: a greedy whitespace skip, then a group matching either
a maximal nonempty run of letters-or-digits (Unicode classes L and Nd) or a
single character other than a line feed (the dot does not match a line
feed).  The character classes are parameters of the embedding; the theorems
assume only facts about them that hold for the Unicode classes the source
uses (space and line feed are whitespace, letters and digits are never
whitespace). -/

/-- The group of the token pattern, tried at one position: a maximal
nonempty letters-or-digits run, or a single character that is not a line
feed.  Returns the matched token and the remaining input. -/
def groupMatch (isLD : Char → Bool) : List Char → Option (List Char × List Char)
  | [] => none
  | c :: cs =>
    if isLD c then some ((c :: cs).takeWhile isLD, (c :: cs).dropWhile isLD)
    else if c = '\n' then none
    else some ([c], cs)

/-- Backtracking of the greedy whitespace skip: try the group at the last
consumed whitespace character first (wsRev is the reversed consumed
whitespace run), giving back one character at a time. -/
def wsBacktrack (isLD : Char → Bool) : List Char → List Char → Option (List Char × List Char)
  | [], _ => none
  | c :: wsRev, rest =>
    match groupMatch isLD (c :: rest) with
    | some r => some r
    | none => wsBacktrack isLD wsRev (c :: rest)

/-- One match of the token pattern at the current position, as performed by
match on the compiled pattern: consume the maximal whitespace run, try the
group there, and on failure backtrack right-to-left into the whitespace run.
Returns the matched group and the input after the group (the next scan
position), or none when the whole pattern fails. -/
def tokenMatch (isLD isSp : Char → Bool) (cs : List Char) : Option (List Char × List Char) :=
  match groupMatch isLD (cs.dropWhile isSp) with
  | some r => some r
  | none => wsBacktrack isLD (cs.takeWhile isSp).reverse (cs.dropWhile isSp)

/-- tokenize from the cleaner: repeatedly match the token pattern, yielding
each group, until no match is possible.  fuel bounds the iteration; every
match consumes at least one character, so the wrapper's fuel (the input
length plus one) always suffices. -/
def tokenizeFuel (isLD isSp : Char → Bool) : Nat → List Char → List (List Char)
  | 0, _ => []
  | fuel + 1, cs =>
    match tokenMatch isLD isSp cs with
    | none => []
    | some (t, r) => t :: tokenizeFuel isLD isSp fuel r

/-- tokenize from the cleaner. -/
def tokenize (isLD isSp : Char → Bool) (cs : List Char) : List (List Char) :=
  tokenizeFuel isLD isSp (cs.length + 1) cs

/-- Fold every maximal run of decimal digits to a single 0 (the digit
substitution inside simplify); the flag records whether the scan is inside
a digit run. -/
def digitFoldAux (isDig : Char → Bool) : Bool → List Char → List Char
  | _, [] => []
  | inRun, c :: cs =>
    if isDig c then
      (if inRun then digitFoldAux isDig true cs
      else Char.ofNat 48 :: digitFoldAux isDig true cs)
    else c :: digitFoldAux isDig false cs

/-- Fold every maximal run of decimal digits to a single 0. -/
def digitFold (isDig : Char → Bool) (l : List Char) : List Char :=
  digitFoldAux isDig false l

/-- simplify from the cleaner: lowercase the token, then fold digit runs.
str.lower maps one character to a (possibly longer) string; it is abstracted
into the parameter lower. -/
def simplify (lower : Char → List Char) (isDig : Char → Bool) (tok : List Char) : List Char :=
  digitFold isDig (tok.flatMap lower)

/-- The separator-join performed when writing a tokenized line (join with a
single space). -/
def joinSp : List (List Char) → List Char
  | [] => []
  | [t] => t
  | t :: ts => t ++ ' ' :: joinSp ts

/-- Unpacking a Python string into three variables, as the loop header of
to_tokens does with each yielded token; any length other than three raises
ValueError (none). -/
def unpack3 : List Char → Option (Char × Char × Char)
  | [a, b, c] => some (a, b, c)
  | _ => none

/-- The per-line body of to_tokens: iterate over tokenize(line), unpacking
each yielded token (a string) into three variables token, start, end, so
that token is bound to the first character; append simplify(token); after
the loop, write the space-join when at least minTokens tokens accumulated.
The outer none models the ValueError raised by the unpacking; the inner
Option is the line written (or nothing). -/
def to_tokens_line (isLD isSp : Char → Bool) (lower : Char → List Char) (isDig : Char → Bool)
    (minTokens : Nat) (line : List Char) : Option (Option (List Char)) := do
  let toks ← (tokenize isLD isSp line).mapM
    (fun t => (unpack3 t).map (fun p => simplify lower isDig [p.1]))
  pure (if minTokens ≤ toks.length then some (joinSp toks) else none)

/-- ASCII letters and digits: a concrete instance of the letters-or-digits
class used to exercise the tokenizer theorems on concrete inputs. -/
def asciiLD (c : Char) : Bool :=
  (97 ≤ c.toNat && c.toNat ≤ 122) || (65 ≤ c.toNat && c.toNat ≤ 90) ||
    (48 ≤ c.toNat && c.toNat ≤ 57)

/-- ASCII decimal digits: a concrete instance of the digit class. -/
def asciiDigit (c : Char) : Bool := 48 ≤ c.toNat && c.toNat ≤ 57

/-- ASCII lowercasing: a concrete instance of the per-character lowercase
map. -/
def asciiLower (c : Char) : List Char :=
  if 65 ≤ c.toNat ∧ c.toNat ≤ 90 then [Char.ofNat (c.toNat + 32)] else [c]

/-- The letters-or-digits class extended with U+0130 (LATIN CAPITAL LETTER
I WITH DOT ABOVE, a letter for the tokenizer's regex); U+0307 (COMBINING
DOT ABOVE, category Mn) stays outside the class, as in the regex. -/
def extLD (c : Char) : Bool := asciiLD c || c.toNat == 0x130

/-- str.lower on the characters involved in the dotted-I scenario: the
one-to-two mapping İ (U+0130) to i followed by the combining dot above
(U+0307), ASCII elsewhere. -/
def extLower (c : Char) : List Char :=
  if c.toNat = 0x130 then [Char.ofNat 105, Char.ofNat 0x307] else asciiLower c

/-- A token in the shape the tokenizer produces at every non-final position:
a nonempty run of letters-or-digits characters, or a single character that
is neither whitespace nor letter-or-digit. -/
def goodTok (isLD isSp : Char → Bool) (t : List Char) : Prop :=
  (t ≠ [] ∧ ∀ c ∈ t, isLD c = true) ∨ (∃ c, t = [c] ∧ isSp c = false ∧ isLD c = false)

/-- The shape of the one whitespace token the tokenizer can produce, only in
final position: a single whitespace character other than a line feed
(yielded by the backtracking path when only whitespace remains). -/
def whiteTok (isSp : Char → Bool) (t : List Char) : Prop :=
  ∃ c, t = [c] ∧ isSp c = true ∧ c ≠ Char.ofNat 10

/-- The shape of every token sequence the tokenizer produces: good tokens,
optionally followed by one final whitespace token. -/
def goodSeq (isLD isSp : Char → Bool) (ts : List (List Char)) : Prop :=
  (∀ t ∈ ts, goodTok isLD isSp t) ∨
    (∃ ms w, ts = ms ++ [w] ∧ (∀ t ∈ ms, goodTok isLD isSp t) ∧ whiteTok isSp w)


/-! ## The ZIM binary reader (extractor, process)

A ZIM file is a byte sequence, modelled as List Nat.  Zero-terminated
strings are kept as raw byte lists (the source decodes them as UTF-8; the
decoding itself plays no role in the claims).  A read past the end of file
makes numpy's frombuffer raise, modelled as none / an error result. -/

/-- Byte strings. -/
abbrev Bytes := List Nat

/-- The bytes of an ASCII string, for literals such as the text/html MIME
type. -/
def asciiBytes (s : String) : Bytes := s.data.map Char.toNat

/-- Read exactly n bytes at pos; none when fewer than n bytes remain (the
subsequent frombuffer call would raise). -/
def readBytesAt (f : Bytes) (pos n : Nat) : Option Bytes :=
  if pos + n ≤ f.length then some ((f.drop pos).take n) else none

/-- Little-endian value of a byte string. -/
def leNat : Bytes → Nat
  | [] => 0
  | b :: r => b % 256 + 256 * leNat r

/-- Read an n-byte little-endian unsigned integer at pos. -/
def readUIntLE (f : Bytes) (pos n : Nat) : Option Nat :=
  (readBytesAt f pos n).map leNat

/-- read_string from the extractor: bytes until a NUL byte or end of file
(the terminator is consumed and discarded). -/
def readCStringAt (f : Bytes) (pos : Nat) : Bytes :=
  (f.drop pos).takeWhile (fun b => b ≠ 0)

/-- File position after reading a zero-terminated string at pos (one past
the terminator). -/
def cStringEnd (f : Bytes) (pos : Nat) : Nat :=
  pos + (readCStringAt f pos).length + 1

/-- The MIME-type list: zero-terminated strings read sequentially until an
empty string.  fuel bounds the recursion; the extractor calls it with more
fuel than the file has bytes, which always suffices since every kept string
advances the position. -/
def readMimeTypes (f : Bytes) (pos : Nat) : Nat → List Bytes
  | 0 => []
  | fuel + 1 =>
    let s := readCStringAt f pos
    if s.length = 0 then []
    else s :: readMimeTypes f (pos + s.length + 1) fuel

/-- Insert into an ascending list. -/
def insertSorted (x : Nat) : List Nat → List Nat
  | [] => [x]
  | y :: ys => if x ≤ y then x :: y :: ys else y :: insertSorted x ys

/-- Ascending sort of the directory pointers (numpy.sort). -/
def sortNat : List Nat → List Nat
  | [] => []
  | x :: xs => insertSorted x (sortNat xs)

/-- Classification of one directory entry by the scanner. -/
inductive ScanItem where
  | skip
  | redirectItem (url title : Bytes) (target : Nat)
  | articleItem (url title : Bytes) (cluster blob : Nat)
deriving Repr, DecidableEq

/-- Reading one directory entry at byte offset off, following the
field order of the scanner: 16-bit MIME discriminator; skip codes FFFE and
FFFD; for content entries the MIME-type list is indexed (an out-of-range
index raises, none) and anything but text/html is skipped; then the
namespace byte at off+3 (entries other than namespace A are skipped); then,
past the 32-bit revision, either the 32-bit redirect target or the 32-bit
cluster and blob indices at off+8; finally the zero-terminated URL and
title. -/
def scanEntry (f : Bytes) (mimeTypes : List Bytes) (off : Nat) : Option ScanItem := do
  let mime ← readUIntLE f off 2
  if mime = 0xfffe ∨ mime = 0xfffd then pure ScanItem.skip
  else do
    let redirect := mime = 0xffff
    if h : ¬redirect then do
      let mimeName ← mimeTypes.get? mime
      if mimeName ≠ asciiBytes "text/html" then pure ScanItem.skip
      else do
        let ns ← readUIntLE f (off + 3) 1
        if ns ≠ 65 then pure ScanItem.skip
        else do
          let cluster ← readUIntLE f (off + 8) 4
          let blob ← readUIntLE f (off + 12) 4
          let url := readCStringAt f (off + 16)
          let title := readCStringAt f (cStringEnd f (off + 16))
          pure (ScanItem.articleItem url title cluster blob)
    else do
      let ns ← readUIntLE f (off + 3) 1
      if ns ≠ 65 then pure ScanItem.skip
      else do
        let target ← readUIntLE f (off + 8) 4
        let url := readCStringAt f (off + 12)
        let title := readCStringAt f (cStringEnd f (off + 12))
        pure (ScanItem.redirectItem url title target)

/-- Accumulated scanner output: redirect records, article records, and the
directory_urls mapping from position in the sorted pointer array to URL.
The sorted directory-pointer array and the MIME-type list are locals of
process; they are carried along here so the scanner's guarantees can be
stated about them. -/
structure ScanResult where
  redirects : List (Bytes × Bytes × Nat)
  articles : List (Bytes × Bytes × Nat × Nat)
  directoryUrls : List (Nat × Bytes)
  sortedOffsets : List Nat
  mimeTypes : List Bytes
deriving Repr, DecidableEq

/-- The scanner loop over the sorted directory offsets (i is the current
directory index). Retained entries (redirects and articles) record their URL
in directory_urls under their directory index. -/
def scanLoop (f : Bytes) (mimeTypes : List Bytes) :
    List Nat → Nat → ScanResult → Option ScanResult
  | [], _, acc => some acc
  | off :: rest, i, acc => do
    let item ← scanEntry f mimeTypes off
    match item with
    | ScanItem.skip => scanLoop f mimeTypes rest (i + 1) acc
    | ScanItem.redirectItem u t tgt =>
      scanLoop f mimeTypes rest (i + 1)
        ⟨acc.redirects ++ [(u, t, tgt)], acc.articles, acc.directoryUrls ++ [(i, u)],
          acc.sortedOffsets, acc.mimeTypes⟩
    | ScanItem.articleItem u t c b =>
      scanLoop f mimeTypes rest (i + 1)
        ⟨acc.redirects, acc.articles ++ [(u, t, c, b)], acc.directoryUrls ++ [(i, u)],
          acc.sortedOffsets, acc.mimeTypes⟩

/-- Error kinds of the extractor front-end: the explicit invalid-ZIM check,
or any other raised exception (short reads, bad indexing). -/
inductive ZimErr where
  | invalidFormat
  | failed
deriving Repr, DecidableEq

/-- The ZIM magic number. -/
def zimMagic : Nat := 72173914

/-- The directory-scanning phase of process: magic check (72173914, else
the invalid-ZIM error), header counts and offsets, MIME-type list, the
URL-pointer array (article_count 64-bit pointers, sorted ascending), then
the entry loop. -/
def processScan (f : Bytes) : Except ZimErr ScanResult :=
  match readUIntLE f 0 4 with
  | none => Except.error ZimErr.failed
  | some magic =>
    if magic ≠ zimMagic then Except.error ZimErr.invalidFormat
    else
      let rest : Option ScanResult := do
        let articleCount ← readUIntLE f 24 4
        let _clusterCount ← readUIntLE f 28 4
        let urlsOffset ← readUIntLE f 32 8
        let _titlesOffset ← readUIntLE f 40 8
        let _clustersOffset ← readUIntLE f 48 8
        let mimeOffset ← readUIntLE f 56 8
        let mimes := readMimeTypes f mimeOffset (f.length + 1)
        let offs ← (List.range articleCount).mapM
          (fun i => readUIntLE f (urlsOffset + 8 * i) 8)
        let sorted := sortNat offs
        scanLoop f mimes sorted 0 ⟨[], [], [], sorted, mimes⟩
      match rest with
      | none => Except.error ZimErr.failed
      | some sr => Except.ok sr

/-- Python dict lookup in the directory_urls mapping (keys are distinct
directory indices). -/
def lookupUrl (urls : List (Nat × Bytes)) (k : Nat) : Option Bytes :=
  (urls.find? (fun p => p.1 = k)).map Prod.snd

/-- The lookups performed while writing the redirect elements: each
redirect's target attribute is directory_urls[target]; a missing key raises
KeyError (none). -/
def writeRedirectTargets (sr : ScanResult) : Option (List Bytes) :=
  sr.redirects.mapM (fun r => lookupUrl sr.directoryUrls r.2.2)

/-- Whether the entry at byte offset off would be retained (recorded in
directory_urls) by the scanner. -/
def retainedEntry (f : Bytes) (mimeTypes : List Bytes) (off : Nat) : Bool :=
  match scanEntry f mimeTypes off with
  | some ScanItem.skip => false
  | none => false
  | some _ => true

/-! ## The cluster decoder (extractor, process) -/

/-- Reinterpret a 32-bit unsigned value as numpy int32 (the offset table is
stored into an int32 array). -/
def toInt32 (n : Nat) : Int :=
  if n % 4294967296 < 2147483648 then ((n % 4294967296 : Nat) : Int)
  else ((n % 4294967296 : Nat) : Int) - 4294967296

/-- Wrap an integer to int32, as numpy int32 subtraction does. -/
def wrap32 (x : Int) : Int := toInt32 (x % 4294967296).toNat

/-- seek + read: none for a negative seek position or a negative read
length (both raise); a read past end of file silently returns the available
bytes, exactly as file.read does. -/
def sliceFrom (f : Bytes) (pos len : Int) : Option Bytes :=
  if pos < 0 ∨ len < 0 then none
  else some ((f.drop pos.toNat).take len.toNat)

/-- The blob-offset table read sequentially from byte offset base: the first
32-bit value determines blob_count = first / 4 (an empty table raises when
offsets[0] is assigned, none), then blob_count - 1 further 32-bit values at
base+4, base+8, ... -/
def clusterTable (f : Bytes) (base : Nat) : Option (List Nat) := do
  let first ← readUIntLE f base 4
  let blobCount := first / 4
  if blobCount = 0 then none
  else do
    let tail ← (List.range (blobCount - 1)).mapM
      (fun j => readUIntLE f (base + 4 + 4 * j) 4)
    pure (first :: tail)

/-- The uncompressed-cluster path of the blob reader in process: one
compression byte at clusterStart (this definition covers the values other
than 4); the offset table is read sequentially from the current position,
clusterStart + 1; the logical origin is set to clusterStart + 4; blob i is
read by seeking to origin + offset[i] and reading offset[i+1] - offset[i]
bytes (int32 arithmetic). -/
def readClusterBlob (f : Bytes) (clusterStart blobIndex : Nat) : Option Bytes := do
  let comp ← readUIntLE f clusterStart 1
  if comp = 4 then none
  else do
    let tbl ← clusterTable f (clusterStart + 1)
    let offsets := tbl.map toInt32
    let oi ← offsets.get? blobIndex
    let oj ← offsets.get? (blobIndex + 1)
    sliceFrom f ((clusterStart : Int) + 4 + oi) (wrap32 (oj - oi))

/-- The LZMA path of the blob reader: the stream after the compression byte
is decompressed (the decompressed stream is the argument here); the offset
table is read from decompressed position 0, the logical origin is 0, and
blob i is the decompressed bytes between offset[i] and offset[i+1]. -/
def readClusterBlobLzma (dec : Bytes) (blobIndex : Nat) : Option Bytes := do
  let tbl ← clusterTable dec 0
  let offsets := tbl.map toInt32
  let oi ← offsets.get? blobIndex
  let oj ← offsets.get? (blobIndex + 1)
  sliceFrom dec (0 + oi) (wrap32 (oj - oi))

/-- The cluster decoder as the specification describes it: for a cluster
without compression wrapper, the 32-bit blob-offset table starts at file
offset clusterStart + 4, blob_count is the first offset divided by 4, and
blob i is exactly the bytes from offset[i] to offset[i+1] measured from
that same origin clusterStart + 4. -/
def readClusterBlobSpec (f : Bytes) (clusterStart blobIndex : Nat) : Option Bytes := do
  let comp ← readUIntLE f clusterStart 1
  if comp = 4 then none
  else do
    let tbl ← clusterTable f (clusterStart + 4)
    let oi ← tbl.get? blobIndex
    let oj ← tbl.get? (blobIndex + 1)
    pure ((f.drop (clusterStart + 4 + oi)).take (oj - oi))

/-- The uncompressed-cluster behaviour the code actually implements, stated
in the specification's style: the offset table is read starting at
clusterStart + 1 (directly after the single compression byte), while blob i
occupies the bytes from offset[i] to offset[i+1] measured from origin
clusterStart + 4. -/
def readClusterBlobAmended (f : Bytes) (clusterStart blobIndex : Nat) : Option Bytes := do
  let comp ← readUIntLE f clusterStart 1
  if comp = 4 then none
  else do
    let tbl ← clusterTable f (clusterStart + 1)
    let oi ← tbl.get? blobIndex
    let oj ← tbl.get? (blobIndex + 1)
    pure ((f.drop (clusterStart + 4 + oi)).take (oj - oi))

/-- The LZMA-cluster behaviour as the specification describes it: table at
decompressed offset 0, blob i the decompressed bytes from offset[i] to
offset[i+1]. -/
def readClusterBlobLzmaSpec (dec : Bytes) (blobIndex : Nat) : Option Bytes := do
  let tbl ← clusterTable dec 0
  let oi ← tbl.get? blobIndex
  let oj ← tbl.get? (blobIndex + 1)
  pure ((dec.drop oi).take (oj - oi))


/-! ## The HTML semantic pipeline (extractor: decode, flatten, clean, encode)

The Python Node is a record with a tag and per-tag attributes; its content
list holds nested nodes and raw strings.  NodeData carries the union of the
attributes the source ever sets (level for headers, href for links, title
for abbreviations and for the synthetic root, datetime for time marks, url
for the root); content lives in the tree type. -/

structure NodeData where
  tag : String
  level : Nat := 0
  href : String := ""
  title : Option String := none
  datetime : Option String := none
  url : String := ""
deriving Repr, DecidableEq

/-- A decoded semantic tree: the content list of a Node holds nested nodes
and raw text runs. -/
inductive Tree where
  | text (s : List Char)
  | node (d : NodeData) (content : List Tree)
deriving Repr

/-- The event stream produced by flatten: raw text runs and open/close
markers (the Python pairs (True, node) / (False, node)). -/
inductive Event where
  | txt (s : List Char)
  | opn (d : NodeData)
  | cls (d : NodeData)
deriving Repr, DecidableEq

/-- The structural tags recognised by flatten. -/
def isStructural (t : String) : Bool :=
  ["h", "blockquote", "ul", "ol", "dl", "li", "dt", "dd"].contains t

/-- Close the innermost open paragraph, if any (the stack bookkeeping in
flatten). -/
def closeTop (stk : List NodeData) : List Event :=
  match stk with
  | [] => []
  | d :: _ => [Event.cls d]

/-- Reopen the innermost open paragraph, if any. -/
def reopenTop (stk : List NodeData) : List Event :=
  match stk with
  | [] => []
  | d :: _ => [Event.opn d]

mutual

/-- flatten's recursive traversal of one node, carrying the stack of open
paragraphs: paragraphs close the enclosing paragraph, open themselves
around their children and reopen the enclosing paragraph afterwards;
structural nodes close the enclosing paragraph around their own open/close
markers and reopen it inside and after; all other nodes emit plain
open/close markers around their children. -/
def flattenTree (stk : List NodeData) : Tree → List Event
  | Tree.text s => [Event.txt s]
  | Tree.node d cs =>
    if d.tag = "p" then
      closeTop stk ++ [Event.opn d] ++ flattenList (d :: stk) cs ++
        [Event.cls d] ++ reopenTop stk
    else if isStructural d.tag then
      closeTop stk ++ [Event.opn d] ++ reopenTop stk ++ flattenList stk cs ++
        closeTop stk ++ [Event.cls d] ++ reopenTop stk
    else
      [Event.opn d] ++ flattenList stk cs ++ [Event.cls d]

/-- flatten's traversal of a content list. -/
def flattenList (stk : List NodeData) : List Tree → List Event
  | [] => []
  | t :: ts => flattenTree stk t ++ flattenList stk ts

end

/-- flatten from the extractor. -/
def flatten (content : List Tree) : List Event := flattenList [] content

/-- The body of clean's accept helper: walk the paragraph interior carrying
the has-seen-an-event flag and the text buffer; text runs are whitespace-
collapsed (with the extractor's explicit whitespace class) and concatenated;
the first non-text event emits the open marker and the left-trimmed buffer;
later events flush the pending buffer; at the end of the interior, a
paragraph that saw an event emits the right-trimmed trailing buffer and the
close marker, while a pure-text paragraph is kept only when its fully
trimmed text is nonempty. -/
def acceptAux (openEv closeEv : Event) :
    Bool → List Char → List Event → List Event
  | has, buffer, [] =>
    if has then
      (let b := rstrip pyWhite buffer
      (if b ≠ [] then [Event.txt b] else []) ++ [closeEv])
    else
      (let b := strip pyWhite buffer
      if b ≠ [] then [openEv, Event.txt b, closeEv] else [])
  | has, buffer, Event.txt s :: rest =>
    acceptAux openEv closeEv has (buffer ++ collapse rWhite s) rest
  | false, buffer, ev :: rest =>
    [openEv] ++
      (let b := lstrip pyWhite buffer
      if b ≠ [] then [Event.txt b] else []) ++
      [ev] ++ acceptAux openEv closeEv true [] rest
  | true, buffer, ev :: rest =>
    (if buffer ≠ [] then [Event.txt buffer] else []) ++
      [ev] ++ acceptAux openEv closeEv true [] rest

/-- clean's accept on a paragraph span: oD is the node of the opening
marker (sequence[start-1]), interior the events strictly between the
markers, cD the node of the closing marker (sequence[end]). -/
def accept (oD : NodeData) (interior : List Event) (cD : NodeData) : List Event :=
  acceptAux (Event.opn oD) (Event.cls cD) false [] interior

/-- The scanning state of clean: outside any paragraph, or inside a
paragraph span with the pending opening node and the interior collected so
far; err models the exception clean raises when a paragraph close arrives
with no paragraph open (start is None). -/
inductive CState where
  | err
  | outside
  | inP (d : NodeData) (buf : List Event)
deriving Repr, DecidableEq

/-- One event of clean's scan.  Outside a paragraph, text is dropped and
non-paragraph markers pass through; a paragraph open enters a span.  Inside
a span all items are collected; a paragraph open restarts the span (the
start index is overwritten); a paragraph close runs accept on the collected
interior. -/
def cleanStep : CState → Event → CState × List Event
  | CState.err, _ => (CState.err, [])
  | CState.outside, Event.txt _ => (CState.outside, [])
  | CState.outside, Event.opn d =>
    if d.tag = "p" then (CState.inP d [], []) else (CState.outside, [Event.opn d])
  | CState.outside, Event.cls d =>
    if d.tag = "p" then (CState.err, []) else (CState.outside, [Event.cls d])
  | CState.inP p buf, Event.txt s => (CState.inP p (buf ++ [Event.txt s]), [])
  | CState.inP p buf, Event.opn d =>
    if d.tag = "p" then (CState.inP d [], [])
    else (CState.inP p (buf ++ [Event.opn d]), [])
  | CState.inP p buf, Event.cls d =>
    if d.tag = "p" then (CState.outside, accept p buf d)
    else (CState.inP p (buf ++ [Event.cls d]), [])

/-- Run clean's scan over a whole sequence. -/
def cleanRun : CState → List Event → CState × List Event
  | st, [] => (st, [])
  | st, e :: rest =>
    let p1 := cleanStep st e
    let p2 := cleanRun p1.1 rest
    (p2.1, p1.2 ++ p2.2)

/-- clean from the extractor: scan the event stream; none models the
exception on a paragraph close without a matching open (a paragraph left
open at the end of the stream is silently discarded, as in the source). -/
def clean (seq : List Event) : Option (List Event) :=
  match cleanRun CState.outside seq with
  | (CState.err, _) => none
  | (_, out) => some out

/-! ### The XML encoder -/

/-- An lxml element: tag, attributes, optional text (before the first
child), optional tail (text after this element, owned by the element as in
lxml), children. -/
inductive XNode where
  | elem (tag : String) (attrs : List (String × String)) (text : Option (List Char))
      (tail : Option (List Char)) (children : List XNode)
deriving Repr

def XNode.tagOf : XNode → String
  | XNode.elem t _ _ _ _ => t

def XNode.textOf : XNode → Option (List Char)
  | XNode.elem _ _ t _ _ => t

def XNode.childrenOf : XNode → List XNode
  | XNode.elem _ _ _ _ k => k

def XNode.withTail : XNode → Option (List Char) → XNode
  | XNode.elem t a tx _ k, tl => XNode.elem t a tx tl k

/-- Element creation in encode's build: the synthetic root becomes an
article element with title and url attributes; h carries its level; a its
href; abbr and time their optional attributes (omitted when empty or
absent, following Python truthiness); the enumerated vocabulary passes
through; any other tag raises AssertionError (none). -/
def mkElem (d : NodeData) : Option (String × List (String × String)) :=
  if d.tag = "root" then
    some ("article", [("title", d.title.getD ""), ("url", d.url)])
  else if d.tag = "h" then some ("h", [("level", toString d.level)])
  else if d.tag = "a" then some ("a", [("href", d.href)])
  else if d.tag = "abbr" then
    some ("abbr", if d.title.getD "" ≠ "" then [("title", d.title.getD "")] else [])
  else if d.tag = "time" then
    some ("time",
      if d.datetime.getD "" ≠ "" then [("datetime", d.datetime.getD "")] else [])
  else if ["blockquote", "ul", "ol", "dl", "li", "dt", "dd", "p", "cite", "q",
      "sub", "sup", "code", "math", "br"].contains d.tag then
    some (d.tag, [])
  else none

/-- The header/description-term flattening at the end of build: when the
element is an h or dt and has at least one child, the element adopts the
first child's text and children (dropping that child's own wrapper and any
further children). -/
def finalize (tg : String) (attrs : List (String × String)) (t0 : Option (List Char))
    (kids : List XNode) : XNode :=
  match kids with
  | k :: _ =>
    if tg = "h" ∨ tg = "dt" then
      XNode.elem tg attrs (XNode.textOf k) none (XNode.childrenOf k)
    else XNode.elem tg attrs t0 none kids
  | [] => XNode.elem tg attrs t0 none kids

/-- encode's child loop: a close marker (whatever node it carries)
finishes the element; an open marker creates the child element from its
node (inlined body of build's recursive call: take an immediately
following text run as element text, then loop over its children), and the
text run immediately following the finished child becomes the child's
tail; running out of events raises (none), as does a text run where a
marker is expected.  fuel bounds the recursion depth; the callers supply
more fuel than the stream is long, which always suffices. -/
def buildChildren : Nat → String → List (String × String) → Option (List Char) →
    List XNode → List Event → Option (XNode × List Event)
  | _, _, _, _, _, [] => none
  | _, _, _, _, _, Event.txt _ :: _ => none
  | _, tg, attrs, t0, acc, Event.cls _ :: rest =>
    some (finalize tg attrs t0 acc, rest)
  | 0, _, _, _, _, Event.opn _ :: _ => none
  | fuel + 1, tg, attrs, t0, acc, Event.opn d :: rest =>
    match
      (match mkElem d with
      | none => none
      | some (tg2, attrs2) =>
        match rest with
        | Event.txt s :: rest2 => buildChildren fuel tg2 attrs2 (some s) [] rest2
        | _ => buildChildren fuel tg2 attrs2 none [] rest) with
    | none => none
    | some (child, rest1) =>
      match rest1 with
      | Event.txt s :: rest2 =>
        buildChildren fuel tg attrs t0 (acc ++ [child.withTail (some s)]) rest2
      | _ => buildChildren fuel tg attrs t0 (acc ++ [child]) rest1

/-- encode's build at an open marker carrying node d: create the element,
take an immediately following text run as element text, then build
children. -/
def buildFrom (fuel : Nat) (d : NodeData) (evs : List Event) :
    Option (XNode × List Event) :=
  match mkElem d with
  | none => none
  | some (tg, attrs) =>
    match evs with
    | Event.txt s :: rest => buildChildren fuel tg attrs (some s) [] rest
    | _ => buildChildren fuel tg attrs none [] evs

/-- The license-footer removal: drop the last child when it is a paragraph
whose text starts with the fixed notice. -/
def licenseText : List Char :=
  ['T', 'h', 'i', 's', ' ', 'a', 'r', 't', 'i', 'c', 'l', 'e', ' ', 'i', 's', ' ',
   'i', 's', 's', 'u', 'e', 'd', ' ', 'f', 'r', 'o', 'm']

def startsWithText (s lit : List Char) : Bool := s.take lit.length = lit

def stripLicense (x : XNode) : XNode :=
  match x with
  | XNode.elem tg attrs t tl kids =>
    match kids.getLast? with
    | some last =>
      if last.tagOf = "p" ∧ (last.textOf.getD []) ≠ [] ∧
          startsWithText (last.textOf.getD []) licenseText then
        XNode.elem tg attrs t tl kids.dropLast
      else XNode.elem tg attrs t tl kids
    | none => XNode.elem tg attrs t tl kids

/-- encode from the extractor: wrap the cleaned sequence in the synthetic
root pair, build the tree, then strip the license footer. -/
def encode (url title : String) (seq : List Event) : Option XNode := do
  let root : NodeData := { tag := "root", title := some title, url := url }
  let p ← buildFrom (seq.length + 2) root (seq ++ [Event.cls root])
  pure (stripLicense p.1)

/-- parse from the extractor, starting from the decoded content of the
mw-content-text container (or the empty list when the container is
missing): wrap the content in a root paragraph node, flatten, clean,
encode. -/
def parseArticle (url title : String) (content : List Tree) : Option XNode := do
  let root := Tree.node { tag := "p" } content
  let cseq ← clean (flatten [root])
  encode url title cseq


/-! ### The HTML semantic decoder -/

/-- A parsed HTML element as lxml exposes it: tag (none models non-string
tags such as comments), attributes, text, tail, children. -/
inductive HTree where
  | elem (tag : Option String) (attrs : List (String × String))
      (text : Option (List Char)) (tail : Option (List Char)) (children : List HTree)
deriving Repr

/-- Python truthiness of an optional string: present and nonempty. -/
def optText (o : Option (List Char)) : List Tree :=
  match o with
  | some s => if s = [] then [] else [Tree.text s]
  | none => []

/-- Digits of a header tag to its numeric level. -/
def digitsToNat (ds : List Char) : Nat :=
  ds.foldl (fun acc d => 10 * acc + (d.toNat - 48)) 0

/-- The header regex h([0-9]+), full match. -/
def headerLevel (t : String) : Option Nat :=
  match t.data with
  | c :: ds =>
    if c = 'h' ∧ ds ≠ [] ∧ ds.all (fun d => 48 ≤ d.toNat && d.toNat ≤ 57) then
      some (digitsToNat ds)
    else none
  | [] => none

mutual

/-- decode from the extractor: dispatch on the source tag.  Structural
containers and cite/q/sub/sup keep their tag; headers h1..h9 become h with
a level; div and p become p; a keeps its href (a missing href raises
KeyError, none); abbr and time keep their optional attribute; code-like
tags fold to code; br and math drop their content; formatting tags are
stripped, keeping text and children inline; the drop list and unknown tags
disappear together with their content (the unknown-tag counter is a side
effect not modelled); in every case the element's tail text follows the
element's own output.  The content of a kept element is its leading text
followed by its decoded children. -/
def decodeTree : HTree → Option (List Tree)
  | HTree.elem none _ _ tail _ => some (optText tail)
  | HTree.elem (some tag) attrs text tail children =>
    if ["blockquote", "ul", "ol", "dl", "li", "dt", "dd"].contains tag then
      match decodeChildren children with
      | none => none
      | some inner =>
        some (Tree.node { tag := tag } (optText text ++ inner) :: optText tail)
    else
      match headerLevel tag with
      | some lvl =>
        match decodeChildren children with
        | none => none
        | some inner =>
          some (Tree.node { tag := "h", level := lvl } (optText text ++ inner) ::
            optText tail)
      | none =>
        if tag = "div" ∨ tag = "p" then
          match decodeChildren children with
          | none => none
          | some inner =>
            some (Tree.node { tag := "p" } (optText text ++ inner) :: optText tail)
        else if tag = "a" then
          match attrs.lookup "href", decodeChildren children with
          | some href, some inner =>
            some (Tree.node { tag := "a", href := href } (optText text ++ inner) ::
              optText tail)
          | _, _ => none
        else if tag = "abbr" then
          match decodeChildren children with
          | none => none
          | some inner =>
            some (Tree.node { tag := "abbr", title := attrs.lookup "title" }
              (optText text ++ inner) :: optText tail)
        else if tag = "time" then
          match decodeChildren children with
          | none => none
          | some inner =>
            some (Tree.node { tag := "time", datetime := attrs.lookup "datetime" }
              (optText text ++ inner) :: optText tail)
        else if ["cite", "q", "sub", "sup"].contains tag then
          match decodeChildren children with
          | none => none
          | some inner =>
            some (Tree.node { tag := tag } (optText text ++ inner) :: optText tail)
        else if ["code", "kbd", "tt", "var"].contains tag then
          match decodeChildren children with
          | none => none
          | some inner =>
            some (Tree.node { tag := "code" } (optText text ++ inner) :: optText tail)
        else if ["br", "math"].contains tag then
          some (Tree.node { tag := tag } [] :: optText tail)
        else if ["b", "bdi", "big", "del", "dfn", "em", "font", "i", "ins", "mark",
            "rb", "ruby", "s", "small", "span", "strong", "u", "wbr"].contains tag then
          match decodeChildren children with
          | none => none
          | some inner => some (optText text ++ inner ++ optText tail)
        else
          some (optText tail)

/-- decode over a children list, concatenating the results. -/
def decodeChildren : List HTree → Option (List Tree)
  | [] => some []
  | h :: hs =>
    match decodeTree h, decodeChildren hs with
    | some r, some rs => some (r ++ rs)
    | _, _ => none

end

/-- The whole per-article pipeline starting from the located
mw-content-text container element. -/
def parseFromHtml (url title : String) (container : HTree) : Option XNode := do
  let content ← decodeTree container
  parseArticle url title content

/-! ### Claim predicates on trees -/

mutual

/-- Does the subtree contain a paragraph or structural node? -/
def treeHasBlock : Tree → Bool
  | Tree.text _ => false
  | Tree.node d cs => d.tag = "p" || isStructural d.tag || treesHaveBlock cs

def treesHaveBlock : List Tree → Bool
  | [] => false
  | t :: ts => treeHasBlock t || treesHaveBlock ts

end

mutual

/-- Block nodes only under block nodes: every paragraph and every
structural node of the tree sits under paragraph/structural ancestors only,
never inside an inline (formatting or link-like) node. -/
def blocksAtBlockPositions : Tree → Bool
  | Tree.text _ => true
  | Tree.node d cs =>
    if d.tag = "p" || isStructural d.tag then blocksAtBlockPositionsList cs
    else !treesHaveBlock cs

def blocksAtBlockPositionsList : List Tree → Bool
  | [] => true
  | t :: ts => blocksAtBlockPositions t && blocksAtBlockPositionsList ts

end

mutual

/-- Does the element subtree contain a p element (the element itself
included)? -/
def xHasP : XNode → Bool
  | XNode.elem tg _ _ _ kids => tg = "p" || xListHasP kids

def xListHasP : List XNode → Bool
  | [] => false
  | k :: ks => xHasP k || xListHasP ks

end

mutual

/-- No p element nested (directly or transitively) inside another p
element. -/
def noNestedP : XNode → Bool
  | XNode.elem tg _ _ _ kids =>
    (if tg = "p" then !xListHasP kids else true) && noNestedPList kids

def noNestedPList : List XNode → Bool
  | [] => true
  | k :: ks => noNestedP k && noNestedPList ks

end

mutual

/-- All text in an element's subtree: its own text and, for each child, the
child's subtree text followed by the child's tail. -/
def xAllText : XNode → List Char
  | XNode.elem _ _ t _ kids => t.getD [] ++ xAllTextList kids

def xAllTextList : List XNode → List Char
  | [] => []
  | k :: ks =>
    xAllText k ++ (match k with | XNode.elem _ _ _ tl _ => tl.getD []) ++ xAllTextList ks

end

/-- Does an optional text hold a non-whitespace character? -/
def hasInk (s : Option (List Char)) : Bool := (s.getD []).any (fun c => !pyWhite c)

mutual

/-- The literal reading of the emitted-paragraph claim: every p element of
the subtree has a non-whitespace character in its own or its descendants'
text. -/
def everyPHasInkText : XNode → Bool
  | XNode.elem tg a t tl kids =>
    (if tg = "p" then (xAllText (XNode.elem tg a t tl kids)).any (fun c => !pyWhite c)
    else true) && everyPHasInkTextList kids

def everyPHasInkTextList : List XNode → Bool
  | [] => true
  | k :: ks => everyPHasInkText k && everyPHasInkTextList ks

end

mutual

/-- The amended reading: every p element either has non-whitespace text of
its own or at least one child element. -/
def everyPInkOrChild : XNode → Bool
  | XNode.elem tg _ t _ kids =>
    (if tg = "p" then (hasInk t || !kids.isEmpty) else true) && everyPInkOrChildList kids

def everyPInkOrChildList : List XNode → Bool
  | [] => true
  | k :: ks => everyPInkOrChild k && everyPInkOrChildList ks

end

/-! ### Stream grammars used by the pipeline invariants -/

/-- Inline node data: neither a paragraph nor a structural element. -/
def inlineTag (d : NodeData) : Prop := d.tag ≠ "p" ∧ isStructural d.tag = false

/-- Span content: the shape of the material flatten places between a
paragraph's open and close markers when block nodes sit only at block
positions: text runs and well-matched inline markers. -/
inductive SpanF : List Event → Prop where
  | nil : SpanF []
  | txt (s : List Char) (rest : List Event) : SpanF rest → SpanF (Event.txt s :: rest)
  | seg (d : NodeData) (inner rest : List Event) : inlineTag d → SpanF inner →
      SpanF rest → SpanF (Event.opn d :: inner ++ Event.cls d :: rest)

/-- An accepted paragraph block in clean's output: either nothing, or an
open marker, an interior, and a close marker, where the interior is
well-shaped, and either contains at least one (inline) open marker or is a
single text run holding a non-whitespace character. -/
inductive PBlockF : List Event → Prop where
  | empty : PBlockF []
  | para (p q : NodeData) (evs : List Event) :
      p.tag = "p" → q.tag = "p" → SpanF evs →
      ((∃ d, Event.opn d ∈ evs) ∨
        (∃ s, evs = [Event.txt s] ∧ ∃ c ∈ s, pyWhite c = false)) →
      PBlockF (Event.opn p :: evs ++ [Event.cls q])

/-- clean's whole output: a concatenation of paragraph blocks and
well-matched structural blocks. -/
inductive GoodF : List Event → Prop where
  | nil : GoodF []
  | para (b rest : List Event) : PBlockF b → GoodF rest → GoodF (b ++ rest)
  | block (d : NodeData) (inner rest : List Event) : isStructural d.tag = true →
      GoodF inner → GoodF rest →
      GoodF (Event.opn d :: inner ++ Event.cls d :: rest)

/-- Emit the pending text buffer, when nonempty (the flush performed by
clean's accept). -/
def flushTxt (b : List Char) : List Event := if b ≠ [] then [Event.txt b] else []

/-- The events accept emits while walking an interior in has-seen-a-marker
mode: markers pass through, preceded by the flushed pending text. -/
def chunkOut : List Char → List Event → List Event
  | buffer, [] => []
  | buffer, Event.txt s :: rest => chunkOut (buffer ++ collapse rWhite s) rest
  | buffer, ev :: rest => flushTxt buffer ++ ev :: chunkOut [] rest

/-- The pending text buffer accept holds after walking part of an interior
in has-seen-a-marker mode. -/
def chunkBuf : List Char → List Event → List Char
  | buffer, [] => buffer
  | buffer, Event.txt s :: rest => chunkBuf (buffer ++ collapse rWhite s) rest
  | _, _ :: rest => chunkBuf [] rest

/-- No marker in the event list carries a paragraph node (the shape of
clean's buffered spans: clean never buffers paragraph markers). -/
def pFree (evs : List Event) : Prop :=
  ∀ d, (Event.opn d ∈ evs ∨ Event.cls d ∈ evs) → d.tag ≠ "p"

/-- The event list does not start with a text run (the position invariant of
encode's child loop at block boundaries). -/
def notTxtHead (evs : List Event) : Prop := ∀ s rest, evs ≠ Event.txt s :: rest

/-- The element invariant produced by building a paragraph interior: no
paragraph element anywhere in the subtree, hence no nested paragraphs and
no ink-free paragraph. -/
def spanKid (k : XNode) : Prop :=
  xHasP k = false ∧ noNestedP k = true ∧ everyPInkOrChild k = true

/-- The element invariant produced by building clean's output: no nested
paragraphs and every paragraph has ink of its own or a child. -/
def goodKid (k : XNode) : Prop := noNestedP k = true ∧ everyPInkOrChild k = true


/-! ### Concrete inputs used by counterexamples and witnesses -/

/-- A minimal ZIM image: correct magic; two directory entries; entry 0 is a
redirect in namespace A whose target is directory index 1; entry 1 is a
text/html entry in namespace B (skipped by the scanner). -/
def exZim : Bytes :=
  [0x5A, 0x49, 0x4D, 0x04,
   0, 0, 0, 0,  0, 0, 0, 0,  0, 0, 0, 0,  0, 0, 0, 0,  0, 0, 0, 0,
   2, 0, 0, 0,
   0, 0, 0, 0,
   80, 0, 0, 0, 0, 0, 0, 0,
   0, 0, 0, 0, 0, 0, 0, 0,
   0, 0, 0, 0, 0, 0, 0, 0,
   64, 0, 0, 0, 0, 0, 0, 0,
   116, 101, 120, 116, 47, 104, 116, 109, 108, 0,
   0, 0, 0, 0, 0, 0,
   96, 0, 0, 0, 0, 0, 0, 0,
   112, 0, 0, 0, 0, 0, 0, 0,
   0xFF, 0xFF, 0, 65, 0, 0, 0, 0, 1, 0, 0, 0, 114, 0, 82, 0,
   0, 0, 0, 66, 0, 0, 0, 0, 0, 0, 0, 0, 0, 0, 0, 0, 98, 0, 66, 0]

/-- The scanner's output on exZim. -/
def exZimResult : ScanResult :=
  ⟨[([114], [82], 1)], [], [(0, [114])], [96, 112], [asciiBytes "text/html"]⟩

/-- exZim with the redirect target changed to directory index 0 (the
redirect entry itself, which is retained). -/
def exZimOk : Bytes :=
  [0x5A, 0x49, 0x4D, 0x04,
   0, 0, 0, 0,  0, 0, 0, 0,  0, 0, 0, 0,  0, 0, 0, 0,  0, 0, 0, 0,
   2, 0, 0, 0,
   0, 0, 0, 0,
   80, 0, 0, 0, 0, 0, 0, 0,
   0, 0, 0, 0, 0, 0, 0, 0,
   0, 0, 0, 0, 0, 0, 0, 0,
   64, 0, 0, 0, 0, 0, 0, 0,
   116, 101, 120, 116, 47, 104, 116, 109, 108, 0,
   0, 0, 0, 0, 0, 0,
   96, 0, 0, 0, 0, 0, 0, 0,
   112, 0, 0, 0, 0, 0, 0, 0,
   0xFF, 0xFF, 0, 65, 0, 0, 0, 0, 0, 0, 0, 0, 114, 0, 82, 0,
   0, 0, 0, 66, 0, 0, 0, 0, 0, 0, 0, 0, 0, 0, 0, 0, 98, 0, 66, 0]

/-- The scanner's output on exZimOk. -/
def exZimOkResult : ScanResult :=
  ⟨[([114], [82], 0)], [], [(0, [114])], [96, 112], [asciiBytes "text/html"]⟩

/-- A minimal uncompressed cluster at byte offset 0: compression byte 1;
the offset table the code reads (at offset 1) is [8, 12]; the table the
specification describes (at offset 4) starts with the value 3072. -/
def exCluster : Bytes := [1, 8, 0, 0, 0, 12, 0, 0, 0, 99, 99, 99, 7, 8, 9, 10]

/-- A minimal decompressed LZMA sub-stream: table [8, 12], one blob. -/
def exLzmaStream : Bytes := [8, 0, 0, 0, 12, 0, 0, 0, 5, 6, 7, 8]

/-- Decoded content with a paragraph inside a link inside a paragraph (from
HTML such as a p whose link contains a div). -/
def exNestedContent : List Tree :=
  [Tree.node { tag := "p" } [Tree.text ['x'],
    Tree.node { tag := "a", href := "h" } [Tree.node { tag := "p" } [Tree.text ['y']]],
    Tree.text ['w']]]

/-- Decoded content of a paragraph holding only a line break. -/
def exBrContent : List Tree := [Tree.node { tag := "p" } [Tree.node { tag := "br" } []]]

/-- Decoded content of a header holding only a list (from
h2 > ul > li HTML). -/
def exHeaderUlContent : List Tree :=
  [Tree.node { tag := "h", level := 2 }
    [Tree.node { tag := "ul" } [Tree.node { tag := "li" } [Tree.text ['z']]]]]

/-- The mw-content-text container of the header scenario
h2 > p > (Hello , b > World). -/
def exHelloHtml : HTree :=
  HTree.elem (some "div") [("id", "mw-content-text")] none none
    [HTree.elem (some "h2") [] none none
      [HTree.elem (some "p") [] (some ['H', 'e', 'l', 'l', 'o', ' ']) none
        [HTree.elem (some "b") [] (some ['W', 'o', 'r', 'l', 'd']) none []]]]


/-- The mw-content-text container of the nested-paragraph scenario: a
paragraph holding a link whose content is a div (decoded as a nested
paragraph). -/
def exNestedHtml : HTree :=
  HTree.elem (some "div") [("id", "mw-content-text")] none none
    [HTree.elem (some "p") [] (some ['x']) none
      [HTree.elem (some "a") [("href", "h")] none (some ['w'])
        [HTree.elem (some "div") [] (some ['y']) none []]]]

/-- The mw-content-text container of a paragraph holding only a line
break. -/
def exBrHtml : HTree :=
  HTree.elem (some "div") [("id", "mw-content-text")] none none
    [HTree.elem (some "p") [] none none
      [HTree.elem (some "br") [] none none []]]

/-- An empty Unidecode table (every non-ASCII codepoint folds to the empty
string), used to exercise the normalizer theorems. -/
def tbl0 : Nat → Option String := fun _ => none


/-- The output alphabet of the per-character folding: a line feed or
printable ASCII including the space. -/
def outAlpha (d : Char) : Prop := d = Char.ofNat 10 ∨ (32 ≤ d.toNat ∧ d.toNat ≤ 126)

/-- No two adjacent whitespace characters (the shape whitespace collapse
guarantees). -/
def noTwoWhite (a b : Char) : Prop := ¬(pyWhite a = true ∧ pyWhite b = true)

/-! ## Theorems -/

set_option maxRecDepth 16000

/-! ### Helper lemmas -/

theorem readUIntLE_of_le (f : Bytes) (pos n : Nat) (h : pos + n ≤ f.length) :
    readUIntLE f pos n = some (leNat ((f.drop pos).take n)) := by
  unfold readUIntLE readBytesAt
  rw [if_pos h]
  rfl

theorem toInt32_small (n : Nat) (h : n < 2 ^ 31) : toInt32 n = (n : Int) := by
  unfold toInt32
  have h1 : n % 4294967296 = n := Nat.mod_eq_of_lt (by omega)
  rw [h1, if_pos (by omega)]

theorem wrap32_small (x : Int) (h0 : 0 ≤ x) (h1 : x < 2 ^ 31) : wrap32 x = x := by
  unfold wrap32
  have h2 : x % 4294967296 = x := Int.emod_eq_of_lt h0 (by omega)
  rw [h2, toInt32_small x.toNat (by omega)]
  omega

/-! ### C4: the magic check -/

/-- C4: an input whose first four bytes, read as a little-endian 32-bit
integer, differ from 72173914 makes the extractor fail with the
invalid-format error. -/
theorem magic_check (f : Bytes) (h4 : 4 ≤ f.length) (hm : leNat (f.take 4) ≠ zimMagic) :
    processScan f = Except.error ZimErr.invalidFormat := by
  unfold processScan
  rw [readUIntLE_of_le f 0 4 (by omega)]
  simp only [List.drop_zero]
  rw [if_pos hm]

/-- Witness for magic_check: a file of four zero bytes. -/
theorem magic_check_witness :
    4 ≤ ([0, 0, 0, 0] : Bytes).length ∧ leNat (([0, 0, 0, 0] : Bytes).take 4) ≠ zimMagic ∧
      processScan [0, 0, 0, 0] = Except.error ZimErr.invalidFormat :=
  ⟨by decide, by decide, magic_check [0, 0, 0, 0] (by decide) (by decide)⟩

/-! ### C3: the cluster decoder -/

/-- C3 counterexample: on exCluster the code returns the blob cut out by
the offset table it read at cluster offset + 1, while the table position
the claim describes (cluster offset + 4) leads nowhere. -/
theorem cluster_origin_counterexample :
    readClusterBlob exCluster 0 0 = some [7, 8, 9, 10] ∧
      readClusterBlobSpec exCluster 0 0 = none := by
  constructor
  · decide
  · decide

/-- C3 amended: the offset table of an uncompressed cluster is read
starting at cluster_pointer + 1 (directly after the compression byte), and
blob i is the bytes between offset i and offset i+1 measured from origin
cluster_pointer + 4; for an LZMA cluster the table is read from
decompressed offset 0 and blob i is the decompressed bytes between offset i
and offset i+1.  Stated for offset values inside the int32 range with
ascending adjacent offsets (as in every well-formed cluster). -/
theorem cluster_decoder_amended :
    (∀ f cs i tbl oi oj, clusterTable f (cs + 1) = some tbl → tbl.get? i = some oi →
      tbl.get? (i + 1) = some oj → oi ≤ oj → oj < 2 ^ 31 →
      readClusterBlob f cs i = readClusterBlobAmended f cs i) ∧
    (∀ dec i tbl oi oj, clusterTable dec 0 = some tbl → tbl.get? i = some oi →
      tbl.get? (i + 1) = some oj → oi ≤ oj → oj < 2 ^ 31 →
      readClusterBlobLzma dec i = readClusterBlobLzmaSpec dec i) := by
  constructor
  · intro f cs i tbl oi oj htbl hoi hoj hle hsmall
    unfold readClusterBlob readClusterBlobAmended
    cases hcomp : readUIntLE f cs 1 with
    | none => rfl
    | some comp =>
      simp only [Option.bind_eq_bind, Option.some_bind]
      by_cases h4 : comp = 4
      · simp [h4]
      · simp only [h4, if_false, htbl, Option.some_bind, List.get?_map, hoi, hoj,
          Option.map_some, Option.map_some', toInt32_small oi (by omega),
          toInt32_small oj (by omega), Option.some_bind]
        rw [wrap32_small ((oj : Int) - (oi : Int)) (by omega) (by push_cast; omega)]
        unfold sliceFrom
        rw [if_neg (by push_cast; omega)]
        have hpos : ((cs : Int) + 4 + (oi : Int)).toNat = cs + 4 + oi := by omega
        have hlen : ((oj : Int) - (oi : Int)).toNat = oj - oi := by omega
        rw [hpos, hlen]
        rfl
  · intro dec i tbl oi oj htbl hoi hoj hle hsmall
    unfold readClusterBlobLzma readClusterBlobLzmaSpec
    simp only [htbl, Option.bind_eq_bind, Option.some_bind, List.get?_map, hoi, hoj,
      Option.map_some, Option.map_some', toInt32_small oi (by omega),
      toInt32_small oj (by omega), Option.some_bind]
    rw [wrap32_small ((oj : Int) - (oi : Int)) (by omega) (by push_cast; omega)]
    unfold sliceFrom
    rw [if_neg (by push_cast; omega)]
    have hpos : ((0 : Int) + (oi : Int)).toNat = oi := by omega
    have hlen : ((oj : Int) - (oi : Int)).toNat = oj - oi := by omega
    rw [hpos, hlen]
    rfl

/-- Witness for cluster_decoder_amended, on exCluster (table [8, 12]) and
exLzmaStream. -/
theorem cluster_decoder_amended_witness :
    (clusterTable exCluster 1 = some [8, 12] ∧
      readClusterBlob exCluster 0 0 = readClusterBlobAmended exCluster 0 0) ∧
    (clusterTable exLzmaStream 0 = some [8, 12] ∧
      readClusterBlobLzma exLzmaStream 0 = readClusterBlobLzmaSpec exLzmaStream 0) :=
  ⟨⟨by rfl, cluster_decoder_amended.1 exCluster 0 0 [8, 12] 8 12 (by rfl) (by rfl)
      (by rfl) (by decide) (by decide)⟩,
   ⟨by rfl, cluster_decoder_amended.2 exLzmaStream 0 [8, 12] 8 12 (by rfl) (by rfl)
      (by rfl) (by decide) (by decide)⟩⟩

/-! ### C9: the tokenized-output writer -/

/-- C9: the per-line body of to_tokens raises ValueError on the very first
token of the line "hello world" (tokenize yields the string "hello", which
cannot be unpacked into the three loop variables), instead of writing the
simplified tokens; the claimed behaviour is unreachable for any line whose
tokens are not all exactly three characters long. -/
theorem to_tokens_line_crashes :
    to_tokens_line asciiLD pyWhite asciiLower asciiDigit 10
      ['h', 'e', 'l', 'l', 'o', ' ', 'w', 'o', 'r', 'l', 'd'] = none ∧
    to_tokens_line asciiLD pyWhite asciiLower asciiDigit 1
      ['a', 'b', 'c', ' ', 'd', 'e', 'f'] = some (some ['a', ' ', 'd']) := by
  constructor
  · rfl
  · rfl


/-! ### C5: the redirect-target lookups -/

/-- C5 counterexample: on exZim the scan succeeds (one redirect, whose
target index 1 is a namespace-B entry the scanner skipped), and the lookup
for the redirect's target attribute fails. -/
theorem redirect_lookup_counterexample :
    processScan exZim = Except.ok exZimResult ∧
      writeRedirectTargets exZimResult = none := by
  constructor
  · rfl
  · rfl

theorem scanLoop_fields (f : Bytes) (m : List Bytes) :
    ∀ offs i acc sr, scanLoop f m offs i acc = some sr →
      sr.sortedOffsets = acc.sortedOffsets ∧ sr.mimeTypes = acc.mimeTypes := by
  intro offs
  induction offs with
  | nil =>
    intro i acc sr h
    simp only [scanLoop, Option.some.injEq] at h
    rw [← h]
    exact ⟨rfl, rfl⟩
  | cons off rest ih =>
    intro i acc sr h
    simp only [scanLoop] at h
    cases he : scanEntry f m off with
    | none => rw [he] at h; simp at h
    | some item =>
      rw [he] at h
      simp only [Option.bind_eq_bind, Option.some_bind] at h
      cases item with
      | skip => exact ih _ _ _ h
      | redirectItem u t tgt =>
        dsimp only at h
        have hx := ih (i + 1) _ sr h
        exact hx
      | articleItem u t c b =>
        dsimp only at h
        have hx := ih (i + 1) _ sr h
        exact hx

theorem scanLoop_mono (f : Bytes) (m : List Bytes) :
    ∀ offs i acc sr, scanLoop f m offs i acc = some sr →
      ∀ p, p ∈ acc.directoryUrls → p ∈ sr.directoryUrls := by
  intro offs
  induction offs with
  | nil =>
    intro i acc sr h p hp
    simp only [scanLoop, Option.some.injEq] at h
    rw [← h]
    exact hp
  | cons off rest ih =>
    intro i acc sr h p hp
    simp only [scanLoop] at h
    cases he : scanEntry f m off with
    | none => rw [he] at h; simp at h
    | some item =>
      rw [he] at h
      simp only [Option.bind_eq_bind, Option.some_bind] at h
      cases item with
      | skip => exact ih _ _ _ h p hp
      | redirectItem u t tgt =>
        dsimp only at h
        have hx := ih (i + 1) _ sr h
        exact hx p (by simp only [List.mem_append]; exact Or.inl hp)
      | articleItem u t c b =>
        dsimp only at h
        have hx := ih (i + 1) _ sr h
        exact hx p (by simp only [List.mem_append]; exact Or.inl hp)

theorem scanLoop_retained (f : Bytes) (m : List Bytes) :
    ∀ offs i acc sr, scanLoop f m offs i acc = some sr →
      ∀ j off, offs.get? j = some off → retainedEntry f m off = true →
      ∃ u, (i + j, u) ∈ sr.directoryUrls := by
  intro offs
  induction offs with
  | nil => intro i acc sr h j off hj hr; simp at hj
  | cons o rest ih =>
    intro i acc sr h j off hj hr
    simp only [scanLoop] at h
    cases he : scanEntry f m o with
    | none => rw [he] at h; simp at h
    | some item =>
      rw [he] at h
      simp only [Option.bind_eq_bind, Option.some_bind] at h
      cases j with
      | zero =>
        simp only [List.get?_cons_zero, Option.some.injEq] at hj
        subst hj
        unfold retainedEntry at hr
        rw [he] at hr
        cases item with
        | skip => simp at hr
        | redirectItem u t tgt =>
          dsimp only at h
          refine ⟨u, ?_⟩
          have hm := scanLoop_mono f m rest (i + 1) _ sr h (i, u)
            (by simp only [List.mem_append]; right; simp)
          simpa using hm
        | articleItem u t c b =>
          dsimp only at h
          refine ⟨u, ?_⟩
          have hm := scanLoop_mono f m rest (i + 1) _ sr h (i, u)
            (by simp only [List.mem_append]; right; simp)
          simpa using hm
      | succ n =>
        have hj2 : rest.get? n = some off := by simpa using hj
        have harith : i + (n + 1) = (i + 1) + n := by omega
        cases item with
        | skip =>
          obtain ⟨u, hu⟩ := ih _ _ _ h n off hj2 hr
          exact ⟨u, by rwa [harith]⟩
        | redirectItem u t tgt =>
          dsimp only at h
          have hx := ih (i + 1) _ sr h
          obtain ⟨u2, hu⟩ := hx n off hj2 hr
          exact ⟨u2, by rwa [harith]⟩
        | articleItem u t c b =>
          dsimp only at h
          have hx := ih (i + 1) _ sr h
          obtain ⟨u2, hu⟩ := hx n off hj2 hr
          exact ⟨u2, by rwa [harith]⟩

theorem lookupUrl_of_mem (urls : List (Nat × Bytes)) (k : Nat) (u : Bytes)
    (h : (k, u) ∈ urls) : lookupUrl urls k ≠ none := by
  unfold lookupUrl
  have hs : (urls.find? (fun p => p.1 = k)).isSome :=
    List.find?_isSome.mpr ⟨(k, u), h, by simp⟩
  cases hf : urls.find? (fun p => p.1 = k) with
  | none => rw [hf] at hs; simp at hs
  | some p => simp

theorem processScan_inv (f : Bytes) (sr : ScanResult)
    (h : processScan f = Except.ok sr) :
    ∃ mo offs,
      scanLoop f (readMimeTypes f mo (f.length + 1)) (sortNat offs) 0
        ⟨[], [], [], sortNat offs, readMimeTypes f mo (f.length + 1)⟩ = some sr := by
  unfold processScan at h
  cases h0 : readUIntLE f 0 4 with
  | none => rw [h0] at h; simp at h
  | some magic =>
    rw [h0] at h
    dsimp only at h
    by_cases hm : magic ≠ zimMagic
    · rw [if_pos hm] at h; simp at h
    · rw [if_neg hm] at h
      split at h
      · simp at h
      · rename_i heq
        simp only [Except.ok.injEq] at h
        subst h
        simp only [Option.bind_eq_bind, Option.bind_eq_some] at heq
        obtain ⟨a1, ha1, heq⟩ := heq
        obtain ⟨a2, ha2, heq⟩ := heq
        obtain ⟨a3, ha3, heq⟩ := heq
        obtain ⟨a4, ha4, heq⟩ := heq
        obtain ⟨a5, ha5, heq⟩ := heq
        obtain ⟨mo, hmo, heq⟩ := heq
        obtain ⟨offs, hoffs, heq⟩ := heq
        exact ⟨mo, offs, heq⟩

/-- C5 amended: the scanner records a URL in directory_urls for every
directory index whose entry it retains; hence the target lookup while
writing a redirect element succeeds whenever the target index denotes a
retained entry (namespace A, and the MIME discriminator is the redirect
code or resolves to text/html).  A redirect whose target is a skipped entry
makes the lookup raise KeyError (see the counterexample). -/
theorem scanner_urls_amended (f : Bytes) (sr : ScanResult)
    (h : processScan f = Except.ok sr) (j off : Nat)
    (hj : sr.sortedOffsets.get? j = some off)
    (hr : retainedEntry f sr.mimeTypes off = true) :
    lookupUrl sr.directoryUrls j ≠ none := by
  obtain ⟨mo, offs, heq⟩ := processScan_inv f sr h
  have hf := scanLoop_fields f (readMimeTypes f mo (f.length + 1)) (sortNat offs) 0
    ⟨[], [], [], sortNat offs, readMimeTypes f mo (f.length + 1)⟩ sr heq
  have hfs : sr.sortedOffsets = sortNat offs := by simpa using hf.1
  have hfm : sr.mimeTypes = readMimeTypes f mo (f.length + 1) := by simpa using hf.2
  have hj2 : (sortNat offs).get? j = some off := by rw [← hfs]; exact hj
  have hr2 : retainedEntry f (readMimeTypes f mo (f.length + 1)) off = true := by
    rw [← hfm]
    exact hr
  obtain ⟨u, hu⟩ := scanLoop_retained f (readMimeTypes f mo (f.length + 1))
    (sortNat offs) 0 _ sr heq j off hj2 hr2
  have hu2 : (j, u) ∈ sr.directoryUrls := by simpa using hu
  exact lookupUrl_of_mem sr.directoryUrls j u hu2

/-- Witness for scanner_urls_amended: exZimOk's redirect targets directory
index 0, which is the (retained) redirect entry itself. -/
theorem scanner_urls_amended_witness :
    (processScan exZimOk = Except.ok exZimOkResult ∧
      exZimOkResult.sortedOffsets.get? 0 = some 96 ∧
      retainedEntry exZimOk exZimOkResult.mimeTypes 96 = true) ∧
    lookupUrl exZimOkResult.directoryUrls 0 ≠ none :=
  ⟨⟨by rfl, by rfl, by rfl⟩,
    scanner_urls_amended exZimOk exZimOkResult (by rfl) 0 96 (by rfl) (by rfl)⟩


/-! ### C7 and C10: the normalizer -/

theorem dictLookup_mem :
    ∀ (l : List (String × String)) (s v : String),
      dictLookup l s = some v → ∃ k, (k, v) ∈ l ∧ s = k := by
  intro l
  induction l with
  | nil => intro s v h; simp [dictLookup] at h
  | cons p rest ih =>
    intro s v h
    obtain ⟨k, v2⟩ := p
    simp only [dictLookup] at h
    by_cases he : s = k
    · rw [if_pos he] at h
      simp only [Option.some.injEq] at h
      subst h
      exact ⟨k, by simp, he⟩
    · rw [if_neg he] at h
      obtain ⟨k2, hm, hs⟩ := ih s v h
      exact ⟨k2, by simp [hm], hs⟩

theorem ov_value_ascii :
    ∀ p ∈ NORMALIZED_OVERRIDDEN_CHARACTERS, p.1.data.length = 1 →
      ∀ d ∈ p.2.data, d = Char.ofNat 10 ∨ (32 ≤ d.toNat ∧ d.toNat ≤ 126) := by
  decide

theorem ov_key_not_ascii :
    ∀ p ∈ NORMALIZED_OVERRIDDEN_CHARACTERS, p.1.data.length = 1 →
      127 < (p.1.data.headD (Char.ofNat 97)).toNat := by
  decide

theorem mapped_ascii :
    ∀ s ∈ NORMALIZED_MAPPED_CHARACTERS,
      ∀ d ∈ s.data, d = Char.ofNat 10 ∨ (32 ≤ d.toNat ∧ d.toNat ≤ 126) := by
  decide

theorem mapped_id :
    ∀ n, 32 ≤ n → n ≤ 126 →
      NORMALIZED_MAPPED_CHARACTERS.get? n = some (String.singleton (Char.ofNat n)) := by
  decide

theorem lookup_singleton_ascii_none (c : Char) (h : c.toNat < 128) :
    dictLookup NORMALIZED_OVERRIDDEN_CHARACTERS (String.singleton c) = none := by
  cases hd : dictLookup NORMALIZED_OVERRIDDEN_CHARACTERS (String.singleton c) with
  | none => rfl
  | some v =>
    obtain ⟨k, hm, hs⟩ := dictLookup_mem _ _ _ hd
    have hk : k.data = [c] := by rw [← hs]; rfl
    have h1 : k.data.length = 1 := by rw [hk]; rfl
    have h2 := ov_key_not_ascii (k, v) hm h1
    rw [hk] at h2
    simp only [List.headD_cons] at h2
    omega

theorem mapAsciiAll_ascii :
    ∀ (l out : List Char), mapAsciiAll l = some out → ∀ d ∈ out, outAlpha d := by
  intro l
  induction l with
  | nil =>
    intro out h d hd
    simp only [mapAsciiAll, Option.some.injEq] at h
    subst h
    simp at hd
  | cons c cs ih =>
    intro out h d hd
    simp only [mapAsciiAll] at h
    cases he : mapAscii c with
    | none => rw [he] at h; simp at h
    | some e =>
      rw [he] at h
      cases hr : mapAsciiAll cs with
      | none => rw [hr] at h; simp at h
      | some rest =>
        rw [hr] at h
        simp only [Option.some.injEq] at h
        subst h
        rcases List.mem_append.mp hd with hde | hdr
        · unfold mapAscii at he
          cases hg : NORMALIZED_MAPPED_CHARACTERS.get? c.toNat with
          | none => rw [hg] at he; simp at he
          | some s =>
            rw [hg] at he
            have he2 : e = s.data := by
              have h9 := he.symm
              simpa using h9
            subst he2
            exact mapped_ascii s (List.get?_mem hg) d hde
        · exact ih rest hr d hdr

theorem normalize_char_ascii (tbl : Nat → Option String) (c : Char)
    (out : List Char) (h : normalize_char tbl c = some out) :
    ∀ d ∈ out, outAlpha d := by
  unfold normalize_char at h
  cases hd : dictLookup NORMALIZED_OVERRIDDEN_CHARACTERS (String.singleton c) with
  | some v =>
    rw [hd] at h
    simp only [Option.some.injEq] at h
    subst h
    obtain ⟨k, hm, hs⟩ := dictLookup_mem _ _ _ hd
    have hk : k.data = [c] := by rw [← hs]; rfl
    have h1 : k.data.length = 1 := by rw [hk]; rfl
    exact ov_value_ascii (k, v) hm h1
  | none =>
    rw [hd] at h
    exact mapAsciiAll_ascii _ _ h

theorem normChars_ascii (tbl : Nat → Option String) :
    ∀ (x r : List Char), normChars tbl x = some r → ∀ d ∈ r, outAlpha d := by
  intro x
  induction x with
  | nil =>
    intro r h d hd
    simp only [normChars, Option.some.injEq] at h
    subst h
    simp at hd
  | cons c cs ih =>
    intro r h d hd
    simp only [normChars] at h
    cases ho : normalize_char tbl c with
    | none => rw [ho] at h; simp at h
    | some out =>
      rw [ho] at h
      cases hr : normChars tbl cs with
      | none => rw [hr] at h; simp at h
      | some rest =>
        rw [hr] at h
        simp only [Option.some.injEq] at h
        subst h
        rcases List.mem_append.mp hd with h1 | h1
        · exact normalize_char_ascii tbl c out ho d h1
        · exact ih rest hr d h1

theorem collapseAux_mem (ws : Char → Bool) :
    ∀ (l : List Char) (b : Bool) (d : Char), d ∈ collapseAux ws b l →
      d = ' ' ∨ (d ∈ l ∧ ws d = false) := by
  intro l
  induction l with
  | nil => intro b d hd; simp [collapseAux] at hd
  | cons c cs ih =>
    intro b d hd
    simp only [collapseAux] at hd
    by_cases hw : ws c
    · rw [if_pos hw] at hd
      cases b with
      | true =>
        simp only [if_pos] at hd
        rcases ih true d hd with h | ⟨h1, h2⟩
        · exact Or.inl h
        · exact Or.inr ⟨List.mem_cons_of_mem c h1, h2⟩
      | false =>
        simp only [Bool.false_eq_true, if_false] at hd
        rcases List.mem_cons.mp hd with h | h
        · exact Or.inl h
        · rcases ih true d h with h2 | ⟨h2, h3⟩
          · exact Or.inl h2
          · exact Or.inr ⟨List.mem_cons_of_mem c h2, h3⟩
    · rw [if_neg hw] at hd
      rcases List.mem_cons.mp hd with h | h
      · subst h
        exact Or.inr ⟨List.mem_cons_self d cs, by simpa using hw⟩
      · rcases ih false d h with h2 | ⟨h2, h3⟩
        · exact Or.inl h2
        · exact Or.inr ⟨List.mem_cons_of_mem c h2, h3⟩

theorem collapseAux_true_head (ws : Char → Bool) :
    ∀ (l : List Char) (d : Char), (collapseAux ws true l).head? = some d →
      ws d = false := by
  intro l
  induction l with
  | nil => intro d h; simp [collapseAux] at h
  | cons c cs ih =>
    intro d h
    simp only [collapseAux] at h
    by_cases hw : ws c
    · rw [if_pos hw] at h
      simp only [if_pos] at h
      exact ih d h
    · rw [if_neg hw] at h
      simp only [List.head?_cons, Option.some.injEq] at h
      subst h
      simpa using hw

theorem collapseAux_chain (ws : Char → Bool) :
    ∀ (l : List Char) (b : Bool),
      List.Chain' (fun a b2 => ¬(ws a = true ∧ ws b2 = true)) (collapseAux ws b l) := by
  intro l
  induction l with
  | nil => intro b; simp [collapseAux]
  | cons c cs ih =>
    intro b
    simp only [collapseAux]
    by_cases hw : ws c
    · rw [if_pos hw]
      cases b with
      | true => simpa using ih true
      | false =>
        simp only [Bool.false_eq_true, if_false]
        rw [List.chain'_cons']
        constructor
        · intro y hy
          have := collapseAux_true_head ws cs y hy
          simp [this]
        · exact ih true
    · rw [if_neg hw]
      rw [List.chain'_cons']
      constructor
      · intro y hy
        simp [hw]
      · exact ih false

theorem collapse_fixed_aux (ws : Char → Bool) :
    ∀ l : List Char, (∀ d ∈ l, ws d = true → d = ' ') →
      List.Chain' (fun a b => ¬(ws a = true ∧ ws b = true)) l →
      collapseAux ws false l = l ∧
        ((∀ d, l.head? = some d → ws d = false) → collapseAux ws true l = l) := by
  intro l
  induction l with
  | nil => exact fun _ _ => ⟨rfl, fun _ => rfl⟩
  | cons c cs ih =>
    intro hsane hch
    have hch2 : List.Chain' (fun a b => ¬(ws a = true ∧ ws b = true)) cs := hch.tail
    have hsane2 : ∀ d ∈ cs, ws d = true → d = ' ' :=
      fun d hd => hsane d (List.mem_cons_of_mem c hd)
    obtain ⟨ihf, iht⟩ := ih hsane2 hch2
    by_cases hw : ws c
    · have hc : c = ' ' := hsane c (List.mem_cons_self c cs) hw
      have hhd : ∀ d, cs.head? = some d → ws d = false := by
        intro d hd
        cases cs with
        | nil => simp at hd
        | cons e es =>
          simp only [List.head?_cons, Option.some.injEq] at hd
          subst hd
          have h8 := List.chain'_cons.mp hch
          by_cases hwd : ws e
          · exact absurd ⟨hw, hwd⟩ h8.1
          · simpa using hwd
      constructor
      · simp only [collapseAux, if_pos hw, Bool.false_eq_true, if_false]
        rw [iht hhd, hc]
      · intro hne
        have := hne c (by simp)
        rw [hw] at this
        cases this
    · constructor
      · simp only [collapseAux, if_neg hw]
        rw [ihf]
      · intro _
        simp only [collapseAux, if_neg hw]
        rw [ihf]

theorem dropWhile_head_not (p : Char → Bool) :
    ∀ (l : List Char) (d : Char), (l.dropWhile p).head? = some d → p d = false := by
  intro l
  induction l with
  | nil => intro d h; simp at h
  | cons c cs ih =>
    intro d h
    by_cases hp : p c
    · rw [List.dropWhile_cons_of_pos hp] at h
      exact ih d h
    · rw [List.dropWhile_cons_of_neg hp] at h
      simp only [List.head?_cons, Option.some.injEq] at h
      subst h
      simpa using hp

theorem dropWhile_getLast_of_ne (p : Char → Bool) :
    ∀ l : List Char, l.dropWhile p ≠ [] → (l.dropWhile p).getLast? = l.getLast? := by
  intro l
  induction l with
  | nil => intro h; simp at h
  | cons c cs ih =>
    intro h
    by_cases hp : p c
    · rw [List.dropWhile_cons_of_pos hp] at h ⊢
      rw [ih h]
      cases cs with
      | nil => rw [List.dropWhile_nil] at h; simp at h
      | cons e es => rw [List.getLast?_cons_cons]
    · rw [List.dropWhile_cons_of_neg hp]


theorem strip_mem (ws : Char → Bool) (l : List Char) (d : Char)
    (h : d ∈ strip ws l) : d ∈ l := by
  unfold strip lstrip rstrip at h
  have h1 := (List.dropWhile_sublist ws).subset h
  rw [List.mem_reverse] at h1
  have h2 := (List.dropWhile_sublist ws).subset h1
  rw [List.mem_reverse] at h2
  exact h2

theorem strip_head_not (ws : Char → Bool) (l : List Char) (d : Char)
    (h : (strip ws l).head? = some d) : ws d = false := by
  unfold strip lstrip at h
  exact dropWhile_head_not ws _ d h

theorem strip_getLast_not (ws : Char → Bool) (l : List Char) (d : Char)
    (h : (strip ws l).getLast? = some d) : ws d = false := by
  unfold strip lstrip rstrip at h
  set r := (l.reverse.dropWhile ws).reverse with hr
  have hne : r.dropWhile ws ≠ [] := by
    intro hnil
    rw [hnil] at h
    simp at h
  rw [dropWhile_getLast_of_ne ws r hne] at h
  rw [hr] at h
  rw [List.getLast?_reverse] at h
  exact dropWhile_head_not ws _ d h

theorem strip_chain (ws : Char → Bool) (l : List Char)
    (h : List.Chain' noTwoWhite l) : List.Chain' noTwoWhite (strip ws l) := by
  unfold strip lstrip rstrip
  have h1 : List.Chain' noTwoWhite l.reverse := by
    rw [List.chain'_reverse]
    exact h.imp (fun a b hab => by
      intro hc
      exact hab ⟨hc.2, hc.1⟩)
  have h2 : List.Chain' noTwoWhite (l.reverse.dropWhile ws) :=
    h1.suffix (List.dropWhile_suffix ws)
  have h3 : List.Chain' noTwoWhite (l.reverse.dropWhile ws).reverse := by
    rw [List.chain'_reverse]
    exact h2.imp (fun a b hab => by
      intro hc
      exact hab ⟨hc.2, hc.1⟩)
  exact h3.suffix (List.dropWhile_suffix ws)

theorem strip_fixed (ws : Char → Bool) (l : List Char)
    (hh : ∀ d, l.head? = some d → ws d = false)
    (hl : ∀ d, l.getLast? = some d → ws d = false) : strip ws l = l := by
  unfold strip lstrip rstrip
  have h1 : l.reverse.dropWhile ws = l.reverse := by
    cases hrv : l.reverse with
    | nil => simp
    | cons c cs =>
      have hc : l.getLast? = some c := by
        rw [← List.head?_reverse, hrv]
        rfl
      rw [List.dropWhile_cons_of_neg (by simp [hl c hc])]
  rw [h1, List.reverse_reverse]
  cases hd : l with
  | nil => simp
  | cons c cs =>
    have hc : l.head? = some c := by rw [hd]; rfl
    rw [List.dropWhile_cons_of_neg (by simp [hh c hc])]

theorem normChars_id (tbl : Nat → Option String) :
    ∀ y : List Char, (∀ d ∈ y, 32 ≤ d.toNat ∧ d.toNat ≤ 126) →
      normChars tbl y = some y := by
  intro y
  induction y with
  | nil => intro h; rfl
  | cons c cs ih =>
    intro h
    have hc := h c (List.mem_cons_self c cs)
    have hu : unidecode_char tbl c = [c] := by
      simp only [unidecode_char]
      rw [if_pos (by omega)]
    have hma : mapAscii c = some [c] := by
      unfold mapAscii
      rw [mapped_id c.toNat hc.1 hc.2]
      have h9 : (String.singleton (Char.ofNat c.toNat)).data = [c] := by
        rw [Char.ofNat_toNat]
        rfl
      simp [h9]
    have hone : normalize_char tbl c = some [c] := by
      unfold normalize_char
      rw [lookup_singleton_ascii_none c (by omega), hu]
      simp only [mapAsciiAll, hma]
      rfl
    simp only [normChars, hone]
    rw [ih (fun d hd => h d (List.mem_cons_of_mem c hd))]
    rfl

theorem normalize_fixed (tbl : Nat → Option String) (y : List Char)
    (hak : ∀ d ∈ y, 32 ≤ d.toNat ∧ d.toNat ≤ 126)
    (hws : ∀ d ∈ y, pyWhite d = true → d = ' ')
    (hch : List.Chain' noTwoWhite y)
    (hhd : ∀ d, y.head? = some d → pyWhite d = false)
    (hlt : ∀ d, y.getLast? = some d → pyWhite d = false) :
    normalize tbl y = some y := by
  unfold normalize
  rw [normChars_id tbl y hak]
  have hch2 : List.Chain' (fun a b => ¬(pyWhite a = true ∧ pyWhite b = true)) y := hch
  have h2 : collapse pyWhite y = y := (collapse_fixed_aux pyWhite y hws hch2).1
  unfold collapse at h2
  show some (strip pyWhite (collapseAux pyWhite false y)) = some y
  rw [h2, strip_fixed pyWhite y hhd hlt]

theorem normalize_shape (tbl : Nat → Option String) (x y : List Char)
    (h : normalize tbl x = some y) :
    (∀ d ∈ y, 32 ≤ d.toNat ∧ d.toNat ≤ 126) ∧
      (∀ d ∈ y, pyWhite d = true → d = ' ') ∧
      List.Chain' noTwoWhite y ∧
      (∀ d, y.head? = some d → pyWhite d = false) ∧
      (∀ d, y.getLast? = some d → pyWhite d = false) := by
  unfold normalize at h
  cases hn : normChars tbl x with
  | none => rw [hn] at h; simp at h
  | some r =>
    rw [hn] at h
    simp only [Option.some.injEq] at h
    subst h
    have hr := normChars_ascii tbl x r hn
    refine ⟨?_, ?_, ?_, ?_, ?_⟩
    · intro d hd
      have hd2 := strip_mem pyWhite _ d hd
      rcases collapseAux_mem pyWhite r false d hd2 with h1 | ⟨h1, h2⟩
      · subst h1; constructor <;> decide
      · rcases hr d h1 with h3 | h3
        · subst h3
          have : pyWhite (Char.ofNat 10) = true := by decide
          rw [this] at h2
          cases h2
        · exact h3
    · intro d hd hw
      have hd2 := strip_mem pyWhite _ d hd
      rcases collapseAux_mem pyWhite r false d hd2 with h1 | ⟨h1, h2⟩
      · exact h1
      · rw [hw] at h2; cases h2
    · exact strip_chain pyWhite _ (collapseAux_chain pyWhite r false)
    · exact fun d hd => strip_head_not pyWhite _ d hd
    · exact fun d hd => strip_getLast_not pyWhite _ d hd

/-- C7: normalize is idempotent — whatever normalize produced, running it
through normalize again returns it unchanged, for any Unidecode table. -/
theorem normalize_idem (tbl : Nat → Option String) (x y : List Char)
    (h : normalize tbl x = some y) : normalize tbl y = some y := by
  obtain ⟨h1, h2, h3, h4, h5⟩ := normalize_shape tbl x y h
  exact normalize_fixed tbl y h1 h2 h3 h4 h5

/-- Witness for normalize_idem on a concrete input with collapsible
whitespace. -/
theorem normalize_idem_witness :
    normalize tbl0 ['a', ' ', ' ', 'b', '!'] = some ['a', ' ', 'b', '!'] ∧
      normalize tbl0 ['a', ' ', 'b', '!'] = some ['a', ' ', 'b', '!'] :=
  ⟨rfl, normalize_idem tbl0 ['a', ' ', ' ', 'b', '!'] ['a', ' ', 'b', '!'] rfl⟩

/-- C10: every character normalize emits is ASCII (codepoint below 128):
only the five single-character overrides can match a looked-up character,
and everything else passes through the 128-entry ASCII mapping table. -/
theorem normalize_output_ascii (tbl : Nat → Option String) (x y : List Char)
    (h : normalize tbl x = some y) : ∀ c ∈ y, c.toNat < 128 := by
  intro c hc
  have h1 := (normalize_shape tbl x y h).1 c hc
  omega

/-- Witness for normalize_output_ascii: the single-character overrides fire
on guillemets and fold to ASCII quotes. -/
theorem normalize_output_ascii_witness :
    normalize tbl0 ['«', 'a', '»'] = some ['"', 'a', '"'] ∧
      ∀ c ∈ ['"', 'a', '"'], c.toNat < 128 :=
  ⟨rfl, fun c hc => normalize_output_ascii tbl0 ['«', 'a', '»'] ['"', 'a', '"'] rfl c hc⟩


/-! ### C8: tokenizer join stability -/

theorem groupMatch_shrink (isLD : Char → Bool) :
    ∀ (l t r : List Char), groupMatch isLD l = some (t, r) → r.length < l.length := by
  intro l t r hg
  cases l with
  | nil => simp [groupMatch] at hg
  | cons c cs =>
    simp only [groupMatch] at hg
    by_cases hld : isLD c
    · rw [if_pos hld] at hg
      simp only [Option.some.injEq, Prod.mk.injEq] at hg
      obtain ⟨h1, h2⟩ := hg
      subst h2
      have h3 : ((c :: cs).dropWhile isLD).length ≤ cs.length := by
        rw [List.dropWhile_cons_of_pos hld]
        exact (List.dropWhile_sublist isLD).length_le
      simp only [List.length_cons]
      omega
    · rw [if_neg hld] at hg
      by_cases hnl : c = Char.ofNat 10
      · rw [if_pos hnl] at hg
        exact absurd hg (by simp)
      · rw [if_neg hnl] at hg
        simp only [Option.some.injEq, Prod.mk.injEq] at hg
        obtain ⟨h1, h2⟩ := hg
        subst h2
        simp

theorem wsBacktrack_shrink (isLD : Char → Bool) :
    ∀ (wsRev rest t r : List Char), wsBacktrack isLD wsRev rest = some (t, r) →
      r.length < wsRev.length + rest.length := by
  intro wsRev
  induction wsRev with
  | nil => intro rest t r hw; simp [wsBacktrack] at hw
  | cons c ws ih =>
    intro rest t r hw
    simp only [wsBacktrack] at hw
    cases hg : groupMatch isLD (c :: rest) with
    | some p =>
      rw [hg] at hw
      cases hw
      have := groupMatch_shrink isLD _ _ _ hg
      simp only [List.length_cons] at this ⊢
      omega
    | none =>
      rw [hg] at hw
      have := ih _ _ _ hw
      simp only [List.length_cons] at this ⊢
      omega

theorem tokenMatch_shrink (isLD isSp : Char → Bool) (cs t r : List Char)
    (h : tokenMatch isLD isSp cs = some (t, r)) : r.length < cs.length := by
  have hlen := congrArg List.length (List.takeWhile_append_dropWhile isSp cs)
  rw [List.length_append] at hlen
  unfold tokenMatch at h
  cases hg : groupMatch isLD (cs.dropWhile isSp) with
  | some p =>
    rw [hg] at h
    cases h
    have := groupMatch_shrink isLD _ _ _ hg
    omega
  | none =>
    rw [hg] at h
    have := wsBacktrack_shrink isLD _ _ _ _ h
    simp only [List.length_reverse] at this
    omega

theorem tokenizeFuel_congr (isLD isSp : Char → Bool) :
    ∀ (n m : Nat) (cs : List Char), cs.length < n → cs.length < m →
      tokenizeFuel isLD isSp n cs = tokenizeFuel isLD isSp m cs := by
  intro n
  induction n with
  | zero => intro m cs h1 h2; omega
  | succ n ih =>
    intro m cs h1 h2
    cases m with
    | zero => omega
    | succ m =>
      simp only [tokenizeFuel]
      cases htm : tokenMatch isLD isSp cs with
      | none => rfl
      | some p =>
        obtain ⟨t, r⟩ := p
        dsimp only
        have hs := tokenMatch_shrink isLD isSp cs t r htm
        rw [ih m r (by omega) (by omega)]

theorem tokenize_eq (isLD isSp : Char → Bool) (cs : List Char) :
    tokenize isLD isSp cs =
      match tokenMatch isLD isSp cs with
      | none => []
      | some (t, r) => t :: tokenize isLD isSp r := by
  unfold tokenize
  simp only [tokenizeFuel]
  cases htm : tokenMatch isLD isSp cs with
  | none => rfl
  | some p =>
    obtain ⟨t, r⟩ := p
    dsimp only
    have hs := tokenMatch_shrink isLD isSp cs t r htm
    rw [tokenizeFuel_congr isLD isSp cs.length (r.length + 1) r (by omega) (by omega)]
    rfl

theorem tokenize_nil (isLD isSp : Char → Bool) : tokenize isLD isSp [] = [] := rfl

theorem joinSp_cons_of_ne (t : List Char) (ts : List (List Char)) (h : ts ≠ []) :
    joinSp (t :: ts) = t ++ ' ' :: joinSp ts := by
  cases ts with
  | nil => exact absurd rfl h
  | cons t2 ts2 => rfl


theorem mem_takeWhile_prop (p : Char → Bool) :
    ∀ (l : List Char) (d : Char), d ∈ l.takeWhile p → p d = true := by
  intro l
  induction l with
  | nil => intro d hd; simp at hd
  | cons c cs ih =>
    intro d hd
    by_cases hc : p c
    · rw [List.takeWhile_cons_of_pos hc] at hd
      rcases List.mem_cons.mp hd with h1 | h1
      · rw [h1]; exact hc
      · exact ih d h1
    · rw [List.takeWhile_cons_of_neg hc] at hd
      simp at hd

theorem white_not_LD (isLD isSp : Char → Bool)
    (hdisj : ∀ c, isLD c = true → isSp c = false) (c : Char) (hc : isSp c = true) :
    isLD c = false := by
  cases hld : isLD c
  · rfl
  · rw [hdisj c hld] at hc
    cases hc

theorem groupMatch_some_of_head (isLD isSp : Char → Bool)
    (hnl : isSp (Char.ofNat 10) = true) (c : Char) (v : List Char)
    (hc : isSp c = false) : groupMatch isLD (c :: v) ≠ none := by
  simp only [groupMatch]
  by_cases hld : isLD c
  · rw [if_pos hld]
    simp
  · rw [if_neg hld]
    have hne : ¬c = Char.ofNat 10 := by
      intro hh
      rw [hh, hnl] at hc
      cases hc
    rw [if_neg hne]
    simp

theorem wsBacktrack_spec (isLD isSp : Char → Bool)
    (hdisj : ∀ c, isLD c = true → isSp c = false) :
    ∀ (wsRev rest t r : List Char), (∀ c ∈ wsRev, isSp c = true) →
      (∀ d ∈ rest, d = Char.ofNat 10) →
      wsBacktrack isLD wsRev rest = some (t, r) →
      ∃ c, t = [c] ∧ isSp c = true ∧ c ≠ Char.ofNat 10 ∧ ∀ d ∈ r, d = Char.ofNat 10 := by
  intro wsRev
  induction wsRev with
  | nil => intro rest t r _ _ hw; simp [wsBacktrack] at hw
  | cons c ws ih =>
    intro rest t r hws hrest hw
    have hcw : isSp c = true := hws c (List.mem_cons_self c ws)
    have hld : isLD c = false := white_not_LD isLD isSp hdisj c hcw
    simp only [wsBacktrack] at hw
    cases hg : groupMatch isLD (c :: rest) with
    | some p =>
      rw [hg] at hw
      cases hw
      simp only [groupMatch] at hg
      rw [if_neg (by simp [hld])] at hg
      by_cases hne : c = Char.ofNat 10
      · rw [if_pos hne] at hg
        cases hg
      · rw [if_neg hne] at hg
        simp only [Option.some.injEq, Prod.mk.injEq] at hg
        obtain ⟨h1, h2⟩ := hg
        exact ⟨c, h1.symm, hcw, hne, fun d hd => hrest d (h2 ▸ hd)⟩
    | none =>
      rw [hg] at hw
      have hcnl : c = Char.ofNat 10 := by
        by_contra hne
        simp only [groupMatch] at hg
        rw [if_neg (by simp [hld]), if_neg hne] at hg
        cases hg
      refine ih (c :: rest) t r (fun d hd => hws d (List.mem_cons_of_mem c hd)) ?_ hw
      intro d hd
      rcases List.mem_cons.mp hd with h1 | h1
      · rw [h1, hcnl]
      · exact hrest d h1

theorem tokenMatch_cases (isLD isSp : Char → Bool)
    (hnl : isSp (Char.ofNat 10) = true)
    (hdisj : ∀ c, isLD c = true → isSp c = false) (cs t r : List Char)
    (h : tokenMatch isLD isSp cs = some (t, r)) :
    (t ≠ [] ∧ ∀ c ∈ t, isLD c = true) ∨
      (∃ c, t = [c] ∧ isSp c = false ∧ isLD c = false) ∨
      (∃ c, t = [c] ∧ isSp c = true ∧ c ≠ Char.ofNat 10 ∧
        ∀ d ∈ r, d = Char.ofNat 10) := by
  unfold tokenMatch at h
  cases hg : groupMatch isLD (cs.dropWhile isSp) with
  | some p =>
    rw [hg] at h
    cases h
    cases hdw : cs.dropWhile isSp with
    | nil => rw [hdw] at hg; simp [groupMatch] at hg
    | cons c v =>
      have hcsp : isSp c = false := by
        apply dropWhile_head_not isSp cs
        rw [hdw]
        rfl
      rw [hdw] at hg
      simp only [groupMatch] at hg
      by_cases hld : isLD c
      · rw [if_pos hld] at hg
        simp only [Option.some.injEq, Prod.mk.injEq] at hg
        obtain ⟨h1, h2⟩ := hg
        left
        constructor
        · rw [← h1, List.takeWhile_cons_of_pos hld]
          simp
        · intro d hd
          rw [← h1] at hd
          exact mem_takeWhile_prop isLD _ d hd
      · rw [if_neg hld] at hg
        by_cases hne : c = Char.ofNat 10
        · rw [if_pos hne] at hg
          cases hg
        · rw [if_neg hne] at hg
          simp only [Option.some.injEq, Prod.mk.injEq] at hg
          obtain ⟨h1, h2⟩ := hg
          right; left
          exact ⟨c, h1.symm, hcsp, by simpa using hld⟩
  | none =>
    rw [hg] at h
    have hrest : cs.dropWhile isSp = [] := by
      cases hdw : cs.dropWhile isSp with
      | nil => rfl
      | cons c v =>
        have hcsp : isSp c = false := by
          apply dropWhile_head_not isSp cs
          rw [hdw]
          rfl
        rw [hdw] at hg
        exact absurd hg (groupMatch_some_of_head isLD isSp hnl c v hcsp)
    rw [hrest] at h
    right; right
    refine wsBacktrack_spec isLD isSp hdisj _ _ t r ?_ (by simp) h
    intro c hc
    rw [List.mem_reverse] at hc
    exact mem_takeWhile_prop isSp _ c hc




theorem takeWhile_all_append (p : Char → Bool) :
    ∀ (t l : List Char), (∀ c ∈ t, p c = true) → (t ++ l).takeWhile p = t ++ l.takeWhile p := by
  intro t
  induction t with
  | nil => intro l _; rfl
  | cons c cs ih =>
    intro l h
    rw [List.cons_append, List.takeWhile_cons_of_pos (h c (List.mem_cons_self c cs)),
      ih l (fun d hd => h d (List.mem_cons_of_mem c hd)), List.cons_append]

theorem dropWhile_all_append (p : Char → Bool) :
    ∀ (t l : List Char), (∀ c ∈ t, p c = true) → (t ++ l).dropWhile p = l.dropWhile p := by
  intro t
  induction t with
  | nil => intro l _; rfl
  | cons c cs ih =>
    intro l h
    rw [List.cons_append, List.dropWhile_cons_of_pos (h c (List.mem_cons_self c cs)),
      ih l (fun d hd => h d (List.mem_cons_of_mem c hd))]

theorem tokenMatch_good_prefix (isLD isSp : Char → Bool)
    (hnl : isSp (Char.ofNat 10) = true)
    (hdisj : ∀ c, isLD c = true → isSp c = false) (t rest : List Char)
    (hg : goodTok isLD isSp t)
    (hr : ∀ d ds, rest = d :: ds → isLD d = false) :
    tokenMatch isLD isSp (t ++ rest) = some (t, rest) := by
  have hrest : rest.takeWhile isLD = [] ∧ rest.dropWhile isLD = rest := by
    cases hrc : rest with
    | nil => exact ⟨rfl, rfl⟩
    | cons d ds =>
      have hd : isLD d = false := hr d ds hrc
      exact ⟨List.takeWhile_cons_of_neg (by simp [hd]), List.dropWhile_cons_of_neg (by simp [hd])⟩
  rcases hg with ⟨hne, hall⟩ | ⟨c, hc, hcsp, hcld⟩
  · obtain ⟨c, cs, rfl⟩ := List.exists_cons_of_ne_nil hne
    have hcld : isLD c = true := hall c (List.mem_cons_self c cs)
    have hcsp : isSp c = false := hdisj c hcld
    unfold tokenMatch
    rw [List.cons_append, List.dropWhile_cons_of_neg (by simp [hcsp])]
    simp only [groupMatch]
    rw [if_pos hcld]
    rw [List.takeWhile_cons_of_pos hcld, List.dropWhile_cons_of_pos hcld,
      takeWhile_all_append isLD cs rest (fun d hd => hall d (List.mem_cons_of_mem c hd)),
      dropWhile_all_append isLD cs rest (fun d hd => hall d (List.mem_cons_of_mem c hd)),
      hrest.1, hrest.2, List.append_nil]

  · subst hc
    have hcnl : ¬c = Char.ofNat 10 := by
      intro hh
      rw [hh, hnl] at hcsp
      cases hcsp
    unfold tokenMatch
    rw [List.cons_append, List.dropWhile_cons_of_neg (by simp [hcsp])]
    simp only [groupMatch]
    rw [if_neg (by simp [hcld]), if_neg hcnl]
    simp only [List.nil_append]

theorem tokenMatch_sp_cons (isLD isSp : Char → Bool)
    (hnl : isSp (Char.ofNat 10) = true) (a d : Char) (ds : List Char)
    (ha : isSp a = true) (hd : isSp d = false) :
    tokenMatch isLD isSp (a :: d :: ds) = tokenMatch isLD isSp (d :: ds) := by
  unfold tokenMatch
  rw [List.dropWhile_cons_of_pos ha, List.takeWhile_cons_of_pos ha]
  cases hg : groupMatch isLD ((d :: ds).dropWhile isSp) with
  | some p => rfl
  | none =>
    exfalso
    rw [List.dropWhile_cons_of_neg (by simp [hd])] at hg
    exact groupMatch_some_of_head isLD isSp hnl d ds hd hg

theorem tokenize_sp_cons (isLD isSp : Char → Bool)
    (hnl : isSp (Char.ofNat 10) = true) (a d : Char) (ds : List Char)
    (ha : isSp a = true) (hd : isSp d = false) :
    tokenize isLD isSp (a :: d :: ds) = tokenize isLD isSp (d :: ds) := by
  rw [tokenize_eq, tokenMatch_sp_cons isLD isSp hnl a d ds ha hd, ← tokenize_eq]

theorem tokenize_white_end (isLD isSp : Char → Bool)
    (hdisj : ∀ c, isLD c = true → isSp c = false) (s : List Char) (w : Char)
    (hs : ∀ c ∈ s, isSp c = true) (hw : isSp w = true) (hwn : w ≠ Char.ofNat 10) :
    tokenize isLD isSp (s ++ [w]) = [[w]] := by
  have hwld : isLD w = false := white_not_LD isLD isSp hdisj w hw
  have hdw : (s ++ [w]).dropWhile isSp = [] := by
    rw [dropWhile_all_append isSp s [w] hs, List.dropWhile_cons_of_pos hw]
    rfl
  have htw : (s ++ [w]).takeWhile isSp = s ++ [w] := by
    have := List.takeWhile_append_dropWhile isSp (s ++ [w])
    rw [hdw, List.append_nil] at this
    exact this
  have hm : tokenMatch isLD isSp (s ++ [w]) = some ([w], []) := by
    unfold tokenMatch
    rw [hdw]
    simp only [groupMatch]
    rw [htw, List.reverse_append, List.reverse_cons, List.reverse_nil, List.nil_append,
      List.singleton_append]
    simp only [wsBacktrack, groupMatch]
    rw [if_neg (by simp [hwld]), if_neg hwn]
  rw [tokenize_eq, hm]
  rfl

theorem goodTok_head_not_sp (isLD isSp : Char → Bool)
    (hdisj : ∀ c, isLD c = true → isSp c = false) (t : List Char)
    (h : goodTok isLD isSp t) : ∃ c cs, t = c :: cs ∧ isSp c = false := by
  rcases h with ⟨hne, hall⟩ | ⟨c, hc, hcsp, _⟩
  · obtain ⟨c, cs, rfl⟩ := List.exists_cons_of_ne_nil hne
    exact ⟨c, cs, rfl, hdisj c (hall c (List.mem_cons_self c cs))⟩
  · exact ⟨c, [], hc, hcsp⟩

theorem joinSp_head_good (isLD isSp : Char → Bool)
    (hdisj : ∀ c, isLD c = true → isSp c = false) (t2 : List Char)
    (ts2 : List (List Char)) (h : goodTok isLD isSp t2) :
    ∃ d ds, joinSp (t2 :: ts2) = d :: ds ∧ isSp d = false := by
  obtain ⟨c, cs, rfl, hcsp⟩ := goodTok_head_not_sp isLD isSp hdisj t2 h
  cases ts2 with
  | nil => exact ⟨c, cs, rfl, hcsp⟩
  | cons u us =>
    refine ⟨c, cs ++ ' ' :: joinSp (u :: us), ?_, hcsp⟩
    rw [joinSp_cons_of_ne (c :: cs) (u :: us) (by simp), List.cons_append]

theorem tokenize_join_good (isLD isSp : Char → Bool)
    (hsp : isSp ' ' = true) (hnl : isSp (Char.ofNat 10) = true)
    (hdisj : ∀ c, isLD c = true → isSp c = false) :
    ∀ ts, (∀ t ∈ ts, goodTok isLD isSp t) → tokenize isLD isSp (joinSp ts) = ts := by
  intro ts
  induction ts with
  | nil => intro _; rfl
  | cons t ts ih =>
    intro h
    have hgt := h t (List.mem_cons_self t ts)
    have hsld : isLD ' ' = false := white_not_LD isLD isSp hdisj ' ' hsp
    cases ts with
    | nil =>
      show tokenize isLD isSp (joinSp [t]) = [t]
      have hm := tokenMatch_good_prefix isLD isSp hnl hdisj t [] hgt
        (fun d ds hds => by cases hds)
      rw [List.append_nil] at hm
      show tokenize isLD isSp t = [t]
      rw [tokenize_eq, hm]
      rfl
    | cons t2 ts2 =>
      rw [joinSp_cons_of_ne t (t2 :: ts2) (by simp)]
      have hm := tokenMatch_good_prefix isLD isSp hnl hdisj t (' ' :: joinSp (t2 :: ts2))
        hgt (fun d ds hds => by cases hds; exact hsld)
      rw [tokenize_eq, hm]
      dsimp only
      obtain ⟨d, ds, hjoin, hd⟩ :=
        joinSp_head_good isLD isSp hdisj t2 ts2 (h t2 (List.mem_cons_of_mem t (List.mem_cons_self t2 ts2)))
      rw [hjoin, tokenize_sp_cons isLD isSp hnl ' ' d ds hsp hd, ← hjoin,
        ih (fun u hu => h u (List.mem_cons_of_mem t hu))]

theorem tokenize_join_goodw (isLD isSp : Char → Bool)
    (hsp : isSp ' ' = true) (hnl : isSp (Char.ofNat 10) = true)
    (hdisj : ∀ c, isLD c = true → isSp c = false) :
    ∀ ms w, (∀ t ∈ ms, goodTok isLD isSp t) → whiteTok isSp w →
      tokenize isLD isSp (joinSp (ms ++ [w])) = ms ++ [w] := by
  intro ms
  induction ms with
  | nil =>
    intro w _ hw
    obtain ⟨c, rfl, hcsp, hcn⟩ := hw
    show tokenize isLD isSp (joinSp [[c]]) = [[c]]
    have := tokenize_white_end isLD isSp hdisj [] c (by simp) hcsp hcn
    simpa using this
  | cons t ms ih =>
    intro w hm hw
    have hgt := hm t (List.mem_cons_self t ms)
    have hsld : isLD ' ' = false := white_not_LD isLD isSp hdisj ' ' hsp
    rw [List.cons_append, joinSp_cons_of_ne t (ms ++ [w]) (by simp)]
    have hm2 := tokenMatch_good_prefix isLD isSp hnl hdisj t (' ' :: joinSp (ms ++ [w]))
      hgt (fun d ds hds => by cases hds; exact hsld)
    rw [tokenize_eq, hm2]
    dsimp only
    cases ms with
    | nil =>
      obtain ⟨c, rfl, hcsp, hcn⟩ := hw
      have hwe := tokenize_white_end isLD isSp hdisj [' '] c
        (by intro x hx; simp only [List.mem_singleton] at hx; rw [hx]; exact hsp) hcsp hcn
      show t :: tokenize isLD isSp (' ' :: [c]) = t :: [[c]]
      rw [show (' ' :: [c]) = [' '] ++ [c] from rfl, hwe]
    | cons t2 ms2 =>
      have hg2 : goodTok isLD isSp t2 :=
        hm t2 (List.mem_cons_of_mem t (List.mem_cons_self t2 ms2))
      obtain ⟨d, ds, hjoin, hd⟩ := joinSp_head_good isLD isSp hdisj t2 (ms2 ++ [w]) hg2
      have hjoin2 : joinSp ((t2 :: ms2) ++ [w]) = d :: ds := by
        rw [List.cons_append]
        exact hjoin
      rw [hjoin2, tokenize_sp_cons isLD isSp hnl ' ' d ds hsp hd, ← hjoin2,
        ih w (fun u hu => hm u (List.mem_cons_of_mem t hu)) hw]


theorem tokenize_join (isLD isSp : Char → Bool)
    (hsp : isSp ' ' = true) (hnl : isSp (Char.ofNat 10) = true)
    (hdisj : ∀ c, isLD c = true → isSp c = false) (ts : List (List Char))
    (h : goodSeq isLD isSp ts) : tokenize isLD isSp (joinSp ts) = ts := by
  rcases h with h | ⟨ms, w, rfl, hms, hw⟩
  · exact tokenize_join_good isLD isSp hsp hnl hdisj ts h
  · exact tokenize_join_goodw isLD isSp hsp hnl hdisj ms w hms hw

theorem wsBacktrack_none_of_nl (isLD : Char → Bool)
    (hld : isLD (Char.ofNat 10) = false) :
    ∀ (wsRev rest : List Char), (∀ d ∈ wsRev, d = Char.ofNat 10) →
      wsBacktrack isLD wsRev rest = none := by
  intro wsRev
  induction wsRev with
  | nil => intro rest _; rfl
  | cons c ws ih =>
    intro rest h
    have hc : c = Char.ofNat 10 := h c (List.mem_cons_self c ws)
    simp only [wsBacktrack]
    have hg : groupMatch isLD (c :: rest) = none := by
      simp only [groupMatch]
      rw [if_neg (by rw [hc]; simp [hld]), if_pos hc]
    rw [hg]
    exact ih (c :: rest) (fun d hd => h d (List.mem_cons_of_mem c hd))

theorem tokenize_all_nl (isLD isSp : Char → Bool)
    (hnl : isSp (Char.ofNat 10) = true) (hld : isLD (Char.ofNat 10) = false)
    (r : List Char) (h : ∀ d ∈ r, d = Char.ofNat 10) :
    tokenize isLD isSp r = [] := by
  have hdw : r.dropWhile isSp = [] := by
    rw [List.dropWhile_eq_nil_iff]
    intro x hx
    rw [h x hx]
    exact hnl
  have htw : r.takeWhile isSp = r := by
    have := List.takeWhile_append_dropWhile isSp r
    rw [hdw, List.append_nil] at this
    exact this
  have hm : tokenMatch isLD isSp r = none := by
    unfold tokenMatch
    rw [hdw]
    simp only [groupMatch]
    rw [htw]
    exact wsBacktrack_none_of_nl isLD hld r.reverse []
      (fun d hd => h d (List.mem_reverse.mp hd))
  rw [tokenize_eq, hm]

theorem goodSeq_cons (isLD isSp : Char → Bool) (t : List Char)
    (ts : List (List Char)) (ht : goodTok isLD isSp t)
    (h : goodSeq isLD isSp ts) : goodSeq isLD isSp (t :: ts) := by
  rcases h with h | ⟨ms, w, rfl, hms, hw⟩
  · left
    intro u hu
    rcases List.mem_cons.mp hu with h1 | h1
    · rw [h1]; exact ht
    · exact h u h1
  · right
    refine ⟨t :: ms, w, by rw [List.cons_append], ?_, hw⟩
    intro u hu
    rcases List.mem_cons.mp hu with h1 | h1
    · rw [h1]; exact ht
    · exact hms u h1

theorem tokenize_goodSeq_aux (isLD isSp : Char → Bool)
    (hnl : isSp (Char.ofNat 10) = true)
    (hdisj : ∀ c, isLD c = true → isSp c = false) :
    ∀ (n : Nat) (x : List Char), x.length ≤ n →
      goodSeq isLD isSp (tokenize isLD isSp x) := by
  intro n
  induction n with
  | zero =>
    intro x hx
    have hx0 : x = [] := List.eq_nil_of_length_eq_zero (by omega)
    rw [hx0, tokenize_nil]
    left
    simp
  | succ n ih =>
    intro x hx
    rw [tokenize_eq]
    cases htm : tokenMatch isLD isSp x with
    | none => left; simp
    | some p =>
      obtain ⟨t, r⟩ := p
      dsimp only
      have hs := tokenMatch_shrink isLD isSp x t r htm
      have hld10 : isLD (Char.ofNat 10) = false :=
        white_not_LD isLD isSp hdisj (Char.ofNat 10) hnl
      rcases tokenMatch_cases isLD isSp hnl hdisj x t r htm with
        ⟨hne, hall⟩ | ⟨c, hc, h1, h2⟩ | ⟨c, hc, h1, h2, hr⟩
      · exact goodSeq_cons isLD isSp t _ (Or.inl ⟨hne, hall⟩) (ih r (by omega))
      · exact goodSeq_cons isLD isSp t _ (Or.inr ⟨c, hc, h1, h2⟩) (ih r (by omega))
      · rw [tokenize_all_nl isLD isSp hnl hld10 r hr]
        right
        exact ⟨[], t, rfl, by simp, ⟨c, hc, h1, h2⟩⟩

theorem digitFoldAux_ne_nil (isDig : Char → Bool) (l : List Char) (h : l ≠ []) :
    digitFoldAux isDig false l ≠ [] := by
  cases l with
  | nil => exact absurd rfl h
  | cons c cs =>
    simp only [digitFoldAux]
    by_cases hdc : isDig c
    · rw [if_pos hdc]
      simp
    · rw [if_neg hdc]
      simp

theorem digitFoldAux_all (isDig isLD : Char → Bool)
    (hzero : isLD (Char.ofNat 48) = true) :
    ∀ (l : List Char) (b : Bool), (∀ c ∈ l, isLD c = true) →
      ∀ c ∈ digitFoldAux isDig b l, isLD c = true := by
  intro l
  induction l with
  | nil => intro b _ c hc; simp [digitFoldAux] at hc
  | cons a as ih =>
    intro b h c hc
    simp only [digitFoldAux] at hc
    by_cases hda : isDig a
    · rw [if_pos hda] at hc
      cases b with
      | true =>
        simp only [if_true] at hc
        exact ih true (fun d hd => h d (List.mem_cons_of_mem a hd)) c hc
      | false =>
        simp only [Bool.false_eq_true, if_false] at hc
        rcases List.mem_cons.mp hc with h1 | h1
        · rw [h1]; exact hzero
        · exact ih true (fun d hd => h d (List.mem_cons_of_mem a hd)) c h1
    · rw [if_neg hda] at hc
      rcases List.mem_cons.mp hc with h1 | h1
      · rw [h1]; exact h a (List.mem_cons_self a as)
      · exact ih false (fun d hd => h d (List.mem_cons_of_mem a hd)) c h1

theorem flatMap_all_LD (isLD : Char → Bool) (lower : Char → List Char)
    (hlowLD : ∀ c, isLD c = true → ∀ d ∈ lower c, isLD d = true)
    (t : List Char) (h : ∀ c ∈ t, isLD c = true) :
    ∀ d ∈ t.flatMap lower, isLD d = true := by
  intro d hd
  rw [List.mem_flatMap] at hd
  obtain ⟨c, hc, hdc⟩ := hd
  exact hlowLD c (h c hc) d hdc

theorem simplify_goodTok (isLD isSp : Char → Bool) (lower : Char → List Char)
    (isDig : Char → Bool)
    (hlowLD : ∀ c, isLD c = true → lower c ≠ [] ∧ ∀ d ∈ lower c, isLD d = true)
    (hlowId : ∀ c, isLD c = false → lower c = [c])
    (hdig : ∀ c, isDig c = true → isLD c = true)
    (hzero : isLD (Char.ofNat 48) = true) (t : List Char)
    (h : goodTok isLD isSp t) : goodTok isLD isSp (simplify lower isDig t) := by
  rcases h with ⟨hne, hall⟩ | ⟨c, hc, hcsp, hcld⟩
  · left
    constructor
    · unfold simplify digitFold
      apply digitFoldAux_ne_nil
      obtain ⟨c, cs, rfl⟩ := List.exists_cons_of_ne_nil hne
      rw [List.flatMap_cons]
      cases hlc : lower c with
      | nil => exact absurd hlc (hlowLD c (hall c (List.mem_cons_self c cs))).1
      | cons u us => simp
    · intro d hd
      unfold simplify digitFold at hd
      exact digitFoldAux_all isDig isLD hzero _ false
        (flatMap_all_LD isLD lower (fun c hc => (hlowLD c hc).2) t hall) d hd
  · subst hc
    right
    refine ⟨c, ?_, hcsp, hcld⟩
    have hdc : isDig c = false := by
      cases hdc2 : isDig c
      · rfl
      · rw [hdig c hdc2] at hcld
        cases hcld
    simp [simplify, List.flatMap_cons, hlowId c hcld, digitFold, digitFoldAux, hdc]

theorem simplify_whiteTok (isLD isSp : Char → Bool) (lower : Char → List Char)
    (isDig : Char → Bool)
    (hdisj : ∀ c, isLD c = true → isSp c = false)
    (hlowId : ∀ c, isLD c = false → lower c = [c])
    (hdig : ∀ c, isDig c = true → isLD c = true) (t : List Char)
    (h : whiteTok isSp t) : simplify lower isDig t = t := by
  obtain ⟨c, rfl, hcsp, _⟩ := h
  have hcld : isLD c = false := white_not_LD isLD isSp hdisj c hcsp
  have hdc : isDig c = false := by
    cases hdc2 : isDig c
    · rfl
    · rw [hdig c hdc2] at hcld
      cases hcld
  simp [simplify, List.flatMap_cons, hlowId c hcld, digitFold, digitFoldAux, hdc]

theorem goodSeq_map_simplify (isLD isSp : Char → Bool) (lower : Char → List Char)
    (isDig : Char → Bool)
    (hdisj : ∀ c, isLD c = true → isSp c = false)
    (hlowLD : ∀ c, isLD c = true → lower c ≠ [] ∧ ∀ d ∈ lower c, isLD d = true)
    (hlowId : ∀ c, isLD c = false → lower c = [c])
    (hdig : ∀ c, isDig c = true → isLD c = true)
    (hzero : isLD (Char.ofNat 48) = true) (ts : List (List Char))
    (h : goodSeq isLD isSp ts) :
    goodSeq isLD isSp (ts.map (simplify lower isDig)) := by
  rcases h with h | ⟨ms, w, rfl, hms, hw⟩
  · left
    intro u hu
    rw [List.mem_map] at hu
    obtain ⟨v, hv, rfl⟩ := hu
    exact simplify_goodTok isLD isSp lower isDig hlowLD hlowId hdig hzero v (h v hv)
  · right
    refine ⟨ms.map (simplify lower isDig), w, ?_, ?_, hw⟩
    · rw [List.map_append, List.map_singleton,
        simplify_whiteTok isLD isSp lower isDig hdisj hlowId hdig w hw]
    · intro u hu
      rw [List.mem_map] at hu
      obtain ⟨v, hv, rfl⟩ := hu
      exact simplify_goodTok isLD isSp lower isDig hlowLD hlowId hdig hzero v (hms v hv)


theorem asciiLD_not_white : ∀ c : Char, asciiLD c = true → pyWhite c = false := by
  intro c h
  cases hp : pyWhite c
  · rfl
  · exfalso
    simp only [asciiLD, Bool.or_eq_true, Bool.and_eq_true, decide_eq_true_eq] at h
    simp only [pyWhite, Bool.or_eq_true, Bool.and_eq_true, decide_eq_true_eq,
      beq_iff_eq] at hp
    omega

theorem asciiDigit_LD : ∀ c : Char, asciiDigit c = true → asciiLD c = true := by
  intro c h
  simp only [asciiDigit, Bool.and_eq_true, decide_eq_true_eq] at h
  simp only [asciiLD, Bool.or_eq_true, Bool.and_eq_true, decide_eq_true_eq]
  omega

theorem char_ofNat_toNat_small (n : Nat) (h1 : 97 ≤ n) (h2 : n ≤ 122) :
    (Char.ofNat n).toNat = n := by
  unfold Char.ofNat
  rw [dif_pos (by left; omega)]
  show (Char.ofNatAux n _).toNat = n
  simp [Char.ofNatAux, Char.toNat, UInt32.ofNat', UInt32.toNat, BitVec.toNat_ofNatLt]

theorem asciiLower_LD :
    ∀ c : Char, asciiLD c = true → asciiLower c ≠ [] ∧ ∀ d ∈ asciiLower c, asciiLD d = true := by
  intro c h
  unfold asciiLower
  by_cases hu : 65 ≤ c.toNat ∧ c.toNat ≤ 90
  · rw [if_pos hu]
    refine ⟨by simp, ?_⟩
    intro d hd
    rw [List.mem_singleton] at hd
    have hdn : d.toNat = c.toNat + 32 := by
      rw [hd]
      exact char_ofNat_toNat_small (c.toNat + 32) (by omega) (by omega)
    simp only [asciiLD, Bool.or_eq_true, Bool.and_eq_true, decide_eq_true_eq]
    omega
  · rw [if_neg hu]
    exact ⟨by simp, by intro d hd; rw [List.mem_singleton] at hd; rw [hd]; exact h⟩

theorem asciiLower_id : ∀ c : Char, asciiLD c = false → asciiLower c = [c] := by
  intro c h
  unfold asciiLower
  rw [if_neg]
  intro hu
  have : asciiLD c = true := by
    simp only [asciiLD, Bool.or_eq_true, Bool.and_eq_true, decide_eq_true_eq]
    omega
  rw [this] at h
  cases h

/-- C8 counterexample: join stability fails for the program's own
lowercase map.  str.lower sends İ (U+0130) to i followed by the combining
dot above (U+0307), which is neither a letter nor a digit for the
tokenizer's pattern: the line consisting of the single character İ
tokenizes to one token, its simplified form is the two-character string
i+U+0307, and re-tokenizing the space-join of the simplified tokens splits
it into two tokens, so the claimed identity does not hold. -/
theorem tokenize_join_counterexample :
    (tokenize extLD pyWhite [Char.ofNat 0x130]).map (simplify extLower asciiDigit) =
        [[Char.ofNat 105, Char.ofNat 0x307]] ∧
      tokenize extLD pyWhite (joinSp ((tokenize extLD pyWhite
          [Char.ofNat 0x130]).map (simplify extLower asciiDigit))) =
        [[Char.ofNat 105], [Char.ofNat 0x307]] ∧
      ¬ (tokenize extLD pyWhite (joinSp ((tokenize extLD pyWhite
          [Char.ofNat 0x130]).map (simplify extLower asciiDigit))) =
        (tokenize extLD pyWhite [Char.ofNat 0x130]).map
          (simplify extLower asciiDigit)) := by
  exact ⟨by decide, by decide, by decide⟩

/-- C8 (amended): tokenizer join stability holds for compatible character
classes.  For any letters-or-digits class disjoint from the whitespace
class (which contains space and line feed), and any per-character
lowercase map and digit class compatible with it (lowercasing maps
letters-or-digits to nonempty letters-or-digits strings and fixes other
characters; digits are letters-or-digits; 0 is one), re-tokenizing the
space-join of a line's simplified tokens returns exactly those simplified
tokens: tokenize distributes over the output format of to_tokens.  The
compatibility condition excludes precisely the characters, such as İ,
whose lowercase form leaves the letters-or-digits class. -/
theorem tokenize_join_simplify (isLD isSp : Char → Bool) (lower : Char → List Char)
    (isDig : Char → Bool)
    (hsp : isSp ' ' = true) (hnl : isSp (Char.ofNat 10) = true)
    (hdisj : ∀ c, isLD c = true → isSp c = false)
    (hlowLD : ∀ c, isLD c = true → lower c ≠ [] ∧ ∀ d ∈ lower c, isLD d = true)
    (hlowId : ∀ c, isLD c = false → lower c = [c])
    (hdig : ∀ c, isDig c = true → isLD c = true)
    (hzero : isLD (Char.ofNat 48) = true) (x : List Char) :
    tokenize isLD isSp (joinSp ((tokenize isLD isSp x).map (simplify lower isDig))) =
      (tokenize isLD isSp x).map (simplify lower isDig) := by
  apply tokenize_join isLD isSp hsp hnl hdisj
  apply goodSeq_map_simplify isLD isSp lower isDig hdisj hlowLD hlowId hdig hzero
  exact tokenize_goodSeq_aux isLD isSp hnl hdisj x.length x (le_refl _)

/-- Witness for tokenize_join_simplify: on the ASCII instances of the
character classes and the line "Hello, World 42" followed by a tab, the
tokens simplify to hello , world 0 and the lone tab, and re-tokenizing
their space-join returns them unchanged. -/
theorem tokenize_join_simplify_witness :
    (tokenize asciiLD pyWhite
        ['H', 'e', 'l', 'l', 'o', ',', ' ', 'W', 'o', 'r', 'l', 'd', ' ', '4', '2', '\t']).map
        (simplify asciiLower asciiDigit) =
      [['h', 'e', 'l', 'l', 'o'], [','], ['w', 'o', 'r', 'l', 'd'], ['0'], ['\t']] ∧
      tokenize asciiLD pyWhite (joinSp ((tokenize asciiLD pyWhite
          ['H', 'e', 'l', 'l', 'o', ',', ' ', 'W', 'o', 'r', 'l', 'd', ' ', '4', '2', '\t']).map
          (simplify asciiLower asciiDigit))) =
        (tokenize asciiLD pyWhite
          ['H', 'e', 'l', 'l', 'o', ',', ' ', 'W', 'o', 'r', 'l', 'd', ' ', '4', '2', '\t']).map
          (simplify asciiLower asciiDigit) :=
  ⟨by decide, tokenize_join_simplify asciiLD pyWhite asciiLower asciiDigit
    (by decide) (by decide) asciiLD_not_white asciiLower_LD asciiLower_id asciiDigit_LD
    (by decide)
    ['H', 'e', 'l', 'l', 'o', ',', ' ', 'W', 'o', 'r', 'l', 'd', ' ', '4', '2', '\t']⟩


/-! ### C1/C2/C6: the flatten-clean-encode pipeline -/

theorem SpanF_append (a b : List Event) (ha : SpanF a) (hb : SpanF b) :
    SpanF (a ++ b) := by
  induction ha with
  | nil => exact hb
  | txt s rest hr ih => exact SpanF.txt s (rest ++ b) ih
  | seg d inner rest hd hi hr ihi ihr =>
    have h2 := SpanF.seg d inner (rest ++ b) hd hi ihr
    simpa [List.append_assoc] using h2

theorem GoodF_append (a b : List Event) (ha : GoodF a) (hb : GoodF b) :
    GoodF (a ++ b) := by
  induction ha with
  | nil => exact hb
  | para blk rest hblk hrest ih =>
    have h2 := GoodF.para blk (rest ++ b) hblk ih
    simpa [List.append_assoc] using h2
  | block d inner rest hd hi hr ihi ihr =>
    have h2 := GoodF.block d inner (rest ++ b) hd hi ihr
    simpa [List.append_assoc] using h2

theorem PBlockF_GoodF (b : List Event) (h : PBlockF b) : GoodF b := by
  have h2 := GoodF.para b [] h GoodF.nil
  simpa using h2

theorem cleanRun_cons (st : CState) (e : Event) (rest : List Event) :
    cleanRun st (e :: rest) =
      ((cleanRun (cleanStep st e).1 rest).1,
        (cleanStep st e).2 ++ (cleanRun (cleanStep st e).1 rest).2) := rfl

theorem cleanRun_append (a : List Event) :
    ∀ (b : List Event) (st : CState),
      cleanRun st (a ++ b) =
        ((cleanRun (cleanRun st a).1 b).1,
          (cleanRun st a).2 ++ (cleanRun (cleanRun st a).1 b).2) := by
  induction a with
  | nil => intro b st; simp [cleanRun]
  | cons e a ih =>
    intro b st
    rw [List.cons_append, cleanRun_cons, cleanRun_cons]
    rw [ih b (cleanStep st e).1]
    simp [List.append_assoc]

theorem pFree_cons (e : Event) (evs : List Event) (h : pFree (e :: evs)) :
    pFree evs := by
  intro d hd
  apply h d
  rcases hd with h1 | h1
  · exact Or.inl (List.mem_cons_of_mem e h1)
  · exact Or.inr (List.mem_cons_of_mem e h1)

theorem cleanRun_absorb (evs : List Event) :
    ∀ (p : NodeData) (buf : List Event), pFree evs →
      cleanRun (CState.inP p buf) evs = (CState.inP p (buf ++ evs), []) := by
  induction evs with
  | nil => intro p buf _; simp [cleanRun]
  | cons e evs ih =>
    intro p buf h
    rw [cleanRun_cons]
    have hstep : cleanStep (CState.inP p buf) e = (CState.inP p (buf ++ [e]), []) := by
      cases e with
      | txt s => rfl
      | opn d =>
        have hd : d.tag ≠ "p" := h d (Or.inl (List.mem_cons_self _ _))
        simp [cleanStep, hd]
      | cls d =>
        have hd : d.tag ≠ "p" := h d (Or.inr (List.mem_cons_self _ _))
        simp [cleanStep, hd]
    rw [hstep, ih p (buf ++ [e]) (pFree_cons e evs h)]
    simp [List.append_assoc]

theorem SpanF_pFree (evs : List Event) (h : SpanF evs) : pFree evs := by
  induction h with
  | nil =>
    intro d hd
    rcases hd with h1 | h1 <;> simp at h1
  | txt s rest hr ih =>
    intro d hd
    apply ih d
    rcases hd with h1 | h1
    · rcases List.mem_cons.mp h1 with h2 | h2
      · cases h2
      · exact Or.inl h2
    · rcases List.mem_cons.mp h1 with h2 | h2
      · cases h2
      · exact Or.inr h2
  | seg d2 inner rest hd2 hi hr ihi ihr =>
    intro d hd
    rcases hd with h1 | h1
    · rcases List.mem_cons.mp h1 with h2 | h2
      · cases h2
        exact hd2.1
      · rcases List.mem_append.mp h2 with h3 | h3
        · exact ihi d (Or.inl h3)
        · rcases List.mem_cons.mp h3 with h4 | h4
          · cases h4
          · exact ihr d (Or.inl h4)
    · rcases List.mem_cons.mp h1 with h2 | h2
      · cases h2
      · rcases List.mem_append.mp h2 with h3 | h3
        · exact ihi d (Or.inr h3)
        · rcases List.mem_cons.mp h3 with h4 | h4
          · cases h4
            exact hd2.1
          · exact ihr d (Or.inr h4)


mutual

theorem spanOfTree (stk : List NodeData) : ∀ t : Tree, treeHasBlock t = false →
    SpanF (flattenTree stk t)
  | Tree.text s, _ => SpanF.txt s [] SpanF.nil
  | Tree.node d cs, h => by
    simp only [treeHasBlock, Bool.or_eq_false_iff, decide_eq_false_iff_not] at h
    obtain ⟨⟨hp, hs⟩, hcs⟩ := h
    simp only [flattenTree]
    rw [if_neg hp, if_neg (by simp [hs])]
    exact SpanF.seg d (flattenList stk cs) [] ⟨hp, hs⟩ (spanOfList stk cs hcs) SpanF.nil

theorem spanOfList (stk : List NodeData) : ∀ ts : List Tree, treesHaveBlock ts = false →
    SpanF (flattenList stk ts)
  | [], _ => SpanF.nil
  | t :: ts, h => by
    simp only [treesHaveBlock, Bool.or_eq_false_iff] at h
    exact SpanF_append _ _ (spanOfTree stk t h.1) (spanOfList stk ts h.2)

end

theorem chunk_append (evs1 : List Event) :
    ∀ (evs2 : List Event) (buffer : List Char),
      chunkOut buffer (evs1 ++ evs2) =
        chunkOut buffer evs1 ++ chunkOut (chunkBuf buffer evs1) evs2 ∧
      chunkBuf buffer (evs1 ++ evs2) = chunkBuf (chunkBuf buffer evs1) evs2 := by
  induction evs1 with
  | nil => intro evs2 buffer; simp [chunkOut, chunkBuf]
  | cons e evs1 ih =>
    intro evs2 buffer
    cases e with
    | txt s =>
      simp only [List.cons_append, chunkOut, chunkBuf]
      exact ih evs2 (buffer ++ collapse rWhite s)
    | opn d =>
      simp only [List.cons_append, chunkOut, chunkBuf, List.append_eq]
      obtain ⟨h1, h2⟩ := ih evs2 []
      rw [h1, h2]
      simp [List.append_assoc]
    | cls d =>
      simp only [List.cons_append, chunkOut, chunkBuf, List.append_eq]
      obtain ⟨h1, h2⟩ := ih evs2 []
      rw [h1, h2]
      simp [List.append_assoc]

theorem acceptAux_true_eq (oe ce : Event) (evs : List Event) :
    ∀ buffer, acceptAux oe ce true buffer evs =
      chunkOut buffer evs ++ flushTxt (rstrip pyWhite (chunkBuf buffer evs)) ++ [ce] := by
  induction evs with
  | nil => intro buffer; simp [acceptAux, chunkOut, chunkBuf, flushTxt]
  | cons e evs ih =>
    intro buffer
    cases e with
    | txt s =>
      simp only [acceptAux, chunkOut, chunkBuf]
      exact ih (buffer ++ collapse rWhite s)
    | opn d =>
      simp only [acceptAux, chunkOut, chunkBuf]
      rw [ih []]
      simp [List.append_assoc, flushTxt]
    | cls d =>
      simp only [acceptAux, chunkOut, chunkBuf]
      rw [ih []]
      simp [List.append_assoc, flushTxt]

theorem flushTxt_span (b : List Char) : SpanF (flushTxt b) := by
  unfold flushTxt
  by_cases hb : b ≠ []
  · rw [if_pos hb]
    exact SpanF.txt b [] SpanF.nil
  · rw [if_neg hb]
    exact SpanF.nil

theorem SpanF_flush_prefix (b : List Char) (evs : List Event) (h : SpanF evs) :
    SpanF (flushTxt b ++ evs) :=
  SpanF_append _ _ (flushTxt_span b) h

theorem chunk_span (s : List Event) (hs : SpanF s) :
    ∀ (buffer : List Char) (f : List Char → List Char),
      SpanF (chunkOut buffer s ++ flushTxt (f (chunkBuf buffer s))) := by
  induction hs with
  | nil =>
    intro buffer f
    simp only [chunkOut, chunkBuf, List.nil_append]
    exact flushTxt_span (f buffer)
  | txt t rest hr ih =>
    intro buffer f
    simp only [chunkOut, chunkBuf]
    exact ih (buffer ++ collapse rWhite t) f
  | seg d inner rest hd hi hr ihi ihr =>
    intro buffer f
    simp only [chunkOut, chunkBuf, List.append_eq]
    obtain ⟨ho, hb⟩ := chunk_append inner (Event.cls d :: rest) []
    rw [ho, hb]
    simp only [chunkOut, chunkBuf]
    have hseg := SpanF.seg d
      (chunkOut [] inner ++ flushTxt (chunkBuf [] inner))
      (chunkOut [] rest ++ flushTxt (f (chunkBuf [] rest)))
      hd (ihi [] (fun b => b)) (ihr [] f)
    have h2 := SpanF_flush_prefix buffer _ hseg
    simpa [List.append_assoc, flushTxt] using h2


theorem accept_false_block (p q : NodeData) (hp : p.tag = "p") (hq : q.tag = "p")
    (evs : List Event) (hevs : SpanF evs) :
    ∀ buffer : List Char,
      PBlockF (acceptAux (Event.opn p) (Event.cls q) false buffer evs) := by
  induction hevs with
  | nil =>
    intro buffer
    simp only [acceptAux]
    by_cases hb : strip pyWhite buffer ≠ []
    · rw [if_pos hb]
      have hhead : ∃ c, (strip pyWhite buffer).head? = some c := by
        cases hsb : strip pyWhite buffer with
        | nil => exact absurd hsb hb
        | cons c cs => exact ⟨c, rfl⟩
      obtain ⟨c, hc⟩ := hhead
      have hcw : pyWhite c = false := strip_head_not pyWhite buffer c hc
      have hcm : c ∈ strip pyWhite buffer := by
        cases hsb : strip pyWhite buffer with
        | nil => rw [hsb] at hc; cases hc
        | cons a as =>
          rw [hsb] at hc
          cases hc
          exact List.mem_cons_self c as
      exact PBlockF.para p q [Event.txt (strip pyWhite buffer)] hp hq
        (SpanF.txt _ [] SpanF.nil) (Or.inr ⟨_, rfl, c, hcm, hcw⟩)
    · rw [if_neg hb]
      exact PBlockF.empty
  | txt s rest hr ih =>
    intro buffer
    simp only [acceptAux]
    exact ih (buffer ++ collapse rWhite s)
  | seg d inner rest hd hi hr ihi ihr =>
    intro buffer
    simp only [acceptAux]
    rw [acceptAux_true_eq]
    simp only [List.append_eq]
    obtain ⟨ho, hb⟩ := chunk_append inner (Event.cls d :: rest) []
    rw [ho, hb]
    simp only [chunkOut, chunkBuf]
    have hseg := SpanF.seg d
      (chunkOut [] inner ++ flushTxt (chunkBuf [] inner))
      (chunkOut [] rest ++ flushTxt (rstrip pyWhite (chunkBuf [] rest)))
      hd (chunk_span inner hi [] (fun b => b)) (chunk_span rest hr [] (rstrip pyWhite))
    have hsp := SpanF_flush_prefix (lstrip pyWhite buffer) _ hseg
    have hpb := PBlockF.para p q _ hp hq hsp (Or.inl ⟨d, by simp⟩)
    simpa [List.append_assoc, flushTxt] using hpb

theorem accept_block (p q : NodeData) (hp : p.tag = "p") (hq : q.tag = "p")
    (buf : List Event) (h : SpanF buf) : PBlockF (accept p buf q) :=
  accept_false_block p q hp hq buf h []


theorem cleanRun_step_then (st : CState) (e : Event) (st1 : CState) (o1 : List Event)
    (rest : List Event) (st2 : CState) (o2 : List Event)
    (h1 : cleanStep st e = (st1, o1)) (h2 : cleanRun st1 rest = (st2, o2)) :
    cleanRun st (e :: rest) = (st2, o1 ++ o2) := by
  rw [cleanRun_cons, h1]
  simp [h2]

theorem cleanRun_append_then (a b : List Event) (st st1 st2 : CState)
    (o1 o2 : List Event) (h1 : cleanRun st a = (st1, o1))
    (h2 : cleanRun st1 b = (st2, o2)) :
    cleanRun st (a ++ b) = (st2, o1 ++ o2) := by
  rw [cleanRun_append, h1]
  simp [h2]

theorem cleanStep_txt (p : NodeData) (buf : List Event) (s : List Char) :
    cleanStep (CState.inP p buf) (Event.txt s) =
      (CState.inP p (buf ++ [Event.txt s]), []) := rfl

theorem cleanStep_clsP (p : NodeData) (buf : List Event) (d : NodeData)
    (hd : d.tag = "p") :
    cleanStep (CState.inP p buf) (Event.cls d) = (CState.outside, accept p buf d) := by
  simp [cleanStep, hd]

theorem cleanStep_opnP_out (d : NodeData) (hd : d.tag = "p") :
    cleanStep CState.outside (Event.opn d) = (CState.inP d [], []) := by
  simp [cleanStep, hd]

theorem cleanStep_opnS_out (d : NodeData) (hd : ¬d.tag = "p") :
    cleanStep CState.outside (Event.opn d) = (CState.outside, [Event.opn d]) := by
  simp [cleanStep, hd]

theorem cleanStep_clsS_out (d : NodeData) (hd : ¬d.tag = "p") :
    cleanStep CState.outside (Event.cls d) = (CState.outside, [Event.cls d]) := by
  simp [cleanStep, hd]

mutual

theorem cleanTree : ∀ (t : Tree) (p : NodeData) (stk : List NodeData)
    (buf : List Event), blocksAtBlockPositions t = true → p.tag = "p" → SpanF buf →
    ∃ buf2 out,
      cleanRun (CState.inP p buf) (flattenTree (p :: stk) t) =
        (CState.inP p buf2, out) ∧ SpanF buf2 ∧ GoodF out
  | Tree.text s, p, stk, buf, h, hp, hbuf => by
    refine ⟨buf ++ [Event.txt s], [], ?_,
      SpanF_append _ _ hbuf (SpanF.txt s [] SpanF.nil), GoodF.nil⟩
    exact cleanRun_step_then _ _ _ _ _ _ _ (cleanStep_txt p buf s) rfl
  | Tree.node d cs, p, stk, buf, h, hp, hbuf => by
    by_cases hdp : d.tag = "p"
    · simp only [blocksAtBlockPositions] at h
      rw [if_pos (by simp [hdp])] at h
      obtain ⟨buf2, out2, hcl, hsp2, hgd2⟩ := cleanList cs d (p :: stk) [] h hdp SpanF.nil
      have e5 : cleanRun CState.outside [Event.opn p] = (CState.inP p [], [] ++ []) :=
        cleanRun_step_then _ _ _ _ _ _ _ (cleanStep_opnP_out p hp) rfl
      have e4 := cleanRun_step_then _ _ _ _ _ _ _ (cleanStep_clsP d buf2 d hdp) e5
      have e3 := cleanRun_append_then _ _ _ _ _ _ _ hcl e4
      have e2 := cleanRun_step_then _ _ _ _ _ _ _ (cleanStep_opnP_out d hdp) e3
      have e1 := cleanRun_step_then _ _ _ _ _ _ _ (cleanStep_clsP p buf p hp) e2
      have hstream : flattenTree (p :: stk) (Tree.node d cs) =
          Event.cls p :: Event.opn d ::
            (flattenList (d :: p :: stk) cs ++ Event.cls d :: [Event.opn p]) := by
        simp only [flattenTree]
        rw [if_pos hdp]
        simp [closeTop, reopenTop]
      refine ⟨[], accept p buf p ++ ([] ++ (out2 ++ (accept d buf2 d ++ ([] ++ [])))),
        ?_, SpanF.nil, ?_⟩
      · rw [hstream]
        exact e1
      · have hgood : GoodF (accept p buf p ++
            (out2 ++ accept d buf2 d)) :=
          GoodF_append _ _ (PBlockF_GoodF _ (accept_block p p hp hp buf hbuf))
            (GoodF_append _ _ hgd2 (PBlockF_GoodF _ (accept_block d d hdp hdp buf2 hsp2)))
        have heq : accept p buf p ++ ([] ++ (out2 ++ (accept d buf2 d ++ ([] ++ [])))) =
            accept p buf p ++ (out2 ++ accept d buf2 d) := by
          simp
        rw [heq]
        exact hgood
    · by_cases hds : isStructural d.tag = true
      · simp only [blocksAtBlockPositions] at h
        rw [if_pos (by simp [hds])] at h
        obtain ⟨buf2, out2, hcl, hsp2, hgd2⟩ := cleanList cs p stk [] h hp SpanF.nil
        have e7 : cleanRun CState.outside [Event.opn p] = (CState.inP p [], [] ++ []) :=
          cleanRun_step_then _ _ _ _ _ _ _ (cleanStep_opnP_out p hp) rfl
        have e6 := cleanRun_step_then _ _ _ _ _ _ _ (cleanStep_clsS_out d hdp) e7
        have e5 := cleanRun_step_then _ _ _ _ _ _ _ (cleanStep_clsP p buf2 p hp) e6
        have e4 := cleanRun_append_then _ _ _ _ _ _ _ hcl e5
        have e3 := cleanRun_step_then _ _ _ _ _ _ _ (cleanStep_opnP_out p hp) e4
        have e2 := cleanRun_step_then _ _ _ _ _ _ _ (cleanStep_opnS_out d hdp) e3
        have e1 := cleanRun_step_then _ _ _ _ _ _ _ (cleanStep_clsP p buf p hp) e2
        have hstream : flattenTree (p :: stk) (Tree.node d cs) =
            Event.cls p :: Event.opn d :: Event.opn p ::
              (flattenList (p :: stk) cs ++
                Event.cls p :: Event.cls d :: [Event.opn p]) := by
          simp only [flattenTree]
          rw [if_neg hdp, if_pos (by simp [hds])]
          simp [closeTop, reopenTop]
        refine ⟨[], accept p buf p ++ ([Event.opn d] ++ ([] ++ (out2 ++
          (accept p buf2 p ++ ([Event.cls d] ++ ([] ++ [])))))), ?_, SpanF.nil, ?_⟩
        · rw [hstream]
          exact e1
        · have hblock : GoodF (Event.opn d ::
              (out2 ++ accept p buf2 p) ++ Event.cls d :: []) :=
            GoodF.block d (out2 ++ accept p buf2 p) [] hds
              (GoodF_append _ _ hgd2 (PBlockF_GoodF _ (accept_block p p hp hp buf2 hsp2)))
              GoodF.nil
          have hgood : GoodF (accept p buf p ++
              (Event.opn d :: (out2 ++ accept p buf2 p) ++ Event.cls d :: [])) :=
            GoodF_append _ _ (PBlockF_GoodF _ (accept_block p p hp hp buf hbuf)) hblock
          have heq : accept p buf p ++ ([Event.opn d] ++ ([] ++ (out2 ++
                (accept p buf2 p ++ ([Event.cls d] ++ ([] ++ [])))))) =
              accept p buf p ++
                (Event.opn d :: (out2 ++ accept p buf2 p) ++ Event.cls d :: []) := by
            simp
          rw [heq]
          exact hgood
      · have hds2 : isStructural d.tag = false := by
          cases hx : isStructural d.tag
          · rfl
          · exact absurd hx hds
        simp only [blocksAtBlockPositions] at h
        rw [if_neg (by simp [hdp, hds2])] at h
        have hnb : treesHaveBlock cs = false := by
          cases hx : treesHaveBlock cs
          · rfl
          · rw [hx] at h
            cases h
        have hseg : SpanF (Event.opn d :: flattenList (p :: stk) cs ++
            Event.cls d :: []) :=
          SpanF.seg d _ [] ⟨hdp, hds2⟩ (spanOfList (p :: stk) cs hnb) SpanF.nil
        have hstream : flattenTree (p :: stk) (Tree.node d cs) =
            Event.opn d :: flattenList (p :: stk) cs ++ Event.cls d :: [] := by
          simp only [flattenTree]
          rw [if_neg hdp, if_neg (by simp [hds2])]
          simp
        refine ⟨buf ++ (Event.opn d :: flattenList (p :: stk) cs ++ Event.cls d :: []),
          [], ?_, SpanF_append _ _ hbuf hseg, GoodF.nil⟩
        rw [hstream]
        exact cleanRun_absorb _ p buf (SpanF_pFree _ hseg)

theorem cleanList : ∀ (ts : List Tree) (p : NodeData) (stk : List NodeData)
    (buf : List Event), blocksAtBlockPositionsList ts = true → p.tag = "p" → SpanF buf →
    ∃ buf2 out,
      cleanRun (CState.inP p buf) (flattenList (p :: stk) ts) =
        (CState.inP p buf2, out) ∧ SpanF buf2 ∧ GoodF out
  | [], p, stk, buf, _, hp, hbuf => ⟨buf, [], rfl, hbuf, GoodF.nil⟩
  | t :: ts, p, stk, buf, h, hp, hbuf => by
    simp only [blocksAtBlockPositionsList, Bool.and_eq_true] at h
    obtain ⟨buf2, out1, hc1, hsp1, hgd1⟩ := cleanTree t p stk buf h.1 hp hbuf
    obtain ⟨buf3, out2, hc2, hsp2, hgd2⟩ := cleanList ts p stk buf2 h.2 hp hsp1
    exact ⟨buf3, out1 ++ out2, cleanRun_append_then _ _ _ _ _ _ _ hc1 hc2, hsp2,
      GoodF_append _ _ hgd1 hgd2⟩

end


theorem xListHasP_false (ks : List XNode) :
    xListHasP ks = false ↔ ∀ k ∈ ks, xHasP k = false := by
  induction ks with
  | nil => simp [xListHasP]
  | cons k ks ih =>
    simp only [xListHasP, Bool.or_eq_false_iff, List.mem_cons, ih]
    constructor
    · rintro ⟨h1, h2⟩ u hu
      rcases hu with hu | hu
      · rw [hu]; exact h1
      · exact h2 u hu
    · intro h
      exact ⟨h k (Or.inl rfl), fun u hu => h u (Or.inr hu)⟩

theorem noNestedPList_all (ks : List XNode) :
    noNestedPList ks = true ↔ ∀ k ∈ ks, noNestedP k = true := by
  induction ks with
  | nil => simp [noNestedPList]
  | cons k ks ih =>
    simp only [noNestedPList, Bool.and_eq_true, List.mem_cons, ih]
    constructor
    · rintro ⟨h1, h2⟩ u hu
      rcases hu with hu | hu
      · rw [hu]; exact h1
      · exact h2 u hu
    · intro h
      exact ⟨h k (Or.inl rfl), fun u hu => h u (Or.inr hu)⟩

theorem everyPInkOrChildList_all (ks : List XNode) :
    everyPInkOrChildList ks = true ↔ ∀ k ∈ ks, everyPInkOrChild k = true := by
  induction ks with
  | nil => simp [everyPInkOrChildList]
  | cons k ks ih =>
    simp only [everyPInkOrChildList, Bool.and_eq_true, List.mem_cons, ih]
    constructor
    · rintro ⟨h1, h2⟩ u hu
      rcases hu with hu | hu
      · rw [hu]; exact h1
      · exact h2 u hu
    · intro h
      exact ⟨h k (Or.inl rfl), fun u hu => h u (Or.inr hu)⟩

theorem xHasP_withTail (k : XNode) (t : Option (List Char)) :
    xHasP (k.withTail t) = xHasP k := by
  cases k
  rfl

theorem noNestedP_withTail (k : XNode) (t : Option (List Char)) :
    noNestedP (k.withTail t) = noNestedP k := by
  cases k
  rfl

theorem everyPInkOrChild_withTail (k : XNode) (t : Option (List Char)) :
    everyPInkOrChild (k.withTail t) = everyPInkOrChild k := by
  cases k
  rfl

theorem spanKid_withTail (k : XNode) (t : Option (List Char)) (h : spanKid k) :
    spanKid (k.withTail t) := by
  obtain ⟨h1, h2, h3⟩ := h
  exact ⟨by rw [xHasP_withTail]; exact h1, by rw [noNestedP_withTail]; exact h2,
    by rw [everyPInkOrChild_withTail]; exact h3⟩

theorem goodKid_withTail (k : XNode) (t : Option (List Char)) (h : goodKid k) :
    goodKid (k.withTail t) := by
  obtain ⟨h2, h3⟩ := h
  exact ⟨by rw [noNestedP_withTail]; exact h2,
    by rw [everyPInkOrChild_withTail]; exact h3⟩

theorem spanKid_goodKid (k : XNode) (h : spanKid k) : goodKid k := ⟨h.2.1, h.2.2⟩

theorem noNestedP_children (k : XNode) (h : noNestedP k = true) :
    noNestedPList (XNode.childrenOf k) = true := by
  cases k with
  | elem tg a t tl kids =>
    simp only [noNestedP, Bool.and_eq_true] at h
    exact h.2

theorem everyPInkOrChild_children (k : XNode) (h : everyPInkOrChild k = true) :
    everyPInkOrChildList (XNode.childrenOf k) = true := by
  cases k with
  | elem tg a t tl kids =>
    simp only [everyPInkOrChild, Bool.and_eq_true] at h
    exact h.2

theorem mkElem_tag_not_p (d : NodeData) (tg : String) (attrs : List (String × String))
    (hd : d.tag ≠ "p") (h : mkElem d = some (tg, attrs)) : tg ≠ "p" := by
  unfold mkElem at h
  split_ifs at h with c1 c2 c3 c4 c5 c6 c7 c8
  all_goals first
    | (injection h with h7; injection h7 with h8 h9; rw [← h8]; first | decide | exact hd)
    | injection h

theorem mkElem_inline_not_hdt (d : NodeData) (tg : String)
    (attrs : List (String × String)) (hd : inlineTag d)
    (h : mkElem d = some (tg, attrs)) : tg ≠ "h" ∧ tg ≠ "dt" := by
  obtain ⟨hdp, hds⟩ := hd
  unfold mkElem at h
  split_ifs at h with c1 c2 c3 c4 c5 c6 c7 c8
  all_goals first
    | (simp only [Option.some.injEq, Prod.mk.injEq] at h
       obtain ⟨h8, h9⟩ := h
       rw [← h8]
       first
        | decide
        | (exfalso; rw [c2] at hds; exact absurd hds (by decide))
        | (refine ⟨?_, ?_⟩ <;>
            (intro hh; rw [hh] at hds; exact absurd hds (by decide))))
    | injection h

theorem mkElem_p (d : NodeData) (hd : d.tag = "p") : mkElem d = some ("p", []) := by
  simp [mkElem, hd]

theorem finalize_not_hdt (tg : String) (attrs : List (String × String))
    (t0 : Option (List Char)) (kids : List XNode) (h1 : tg ≠ "h") (h2 : tg ≠ "dt") :
    finalize tg attrs t0 kids = XNode.elem tg attrs t0 none kids := by
  cases kids with
  | nil => rfl
  | cons k ks =>
    unfold finalize
    dsimp only
    rw [if_neg]
    rintro (hh | hh)
    · exact h1 hh
    · exact h2 hh

theorem SpanF_txt_inv : ∀ (evs : List Event), SpanF evs →
    ∀ (s : List Char) (r : List Event), evs = Event.txt s :: r → SpanF r := by
  intro evs h
  cases h with
  | nil => intro s r he; cases he
  | txt s2 rest hr =>
    intro s r he
    injection he with h1 h2
    rw [← h2]
    exact hr
  | seg d inner rest hd hi hr =>
    intro s r he
    rw [List.cons_append] at he
    injection he with h1 h2
    cases h1


theorem buildChildren_cls (fuel : Nat) (tg : String) (attrs : List (String × String))
    (t0 : Option (List Char)) (acc : List XNode) (e : NodeData) (rest : List Event) :
    buildChildren fuel tg attrs t0 acc (Event.cls e :: rest) =
      some (finalize tg attrs t0 acc, rest) := by
  cases fuel <;> rfl

theorem buildChildren_txt (fuel : Nat) (tg : String) (attrs : List (String × String))
    (t0 : Option (List Char)) (acc : List XNode) (s : List Char) (rest : List Event) :
    buildChildren fuel tg attrs t0 acc (Event.txt s :: rest) = none := by
  cases fuel <;> rfl

theorem buildChildren_opn (fuel : Nat) (tg : String) (attrs : List (String × String))
    (t0 : Option (List Char)) (acc : List XNode) (d : NodeData) (rest : List Event) :
    buildChildren (fuel + 1) tg attrs t0 acc (Event.opn d :: rest) =
      match buildFrom fuel d rest with
      | none => none
      | some (child, rest1) =>
        match rest1 with
        | Event.txt s :: rest2 =>
          buildChildren fuel tg attrs t0 (acc ++ [child.withTail (some s)]) rest2
        | _ => buildChildren fuel tg attrs t0 (acc ++ [child]) rest1 := rfl

theorem buildChildren_span : ∀ (n : Nat) (evs : List Event), evs.length ≤ n →
    SpanF evs →
    ∀ (fuel : Nat) (tg : String) (attrs : List (String × String))
      (t0 : Option (List Char)) (acc : List XNode) (rest : List Event),
      notTxtHead rest →
      buildChildren fuel tg attrs t0 acc (evs ++ rest) = none ∨
      ∃ fuel2 acc2, (∀ k ∈ acc2, spanKid k) ∧
        ((∃ d, Event.opn d ∈ evs) → acc2 ≠ []) ∧
        buildChildren fuel tg attrs t0 acc (evs ++ rest) =
          buildChildren fuel2 tg attrs t0 (acc ++ acc2) rest := by
  intro n
  induction n with
  | zero =>
    intro evs hlen hevs fuel tg attrs t0 acc rest hrest
    have hnil : evs = [] := List.eq_nil_of_length_eq_zero (by omega)
    subst hnil
    right
    refine ⟨fuel, [], by simp, ?_, by rw [List.append_nil, List.nil_append]⟩
    rintro ⟨d, hd⟩
    simp at hd
  | succ n ih =>
    intro evs hlen hevs fuel tg attrs t0 acc rest hrest
    cases hevs with
    | nil =>
      right
      refine ⟨fuel, [], by simp, ?_, by rw [List.append_nil, List.nil_append]⟩
      rintro ⟨d, hd⟩
      simp at hd
    | txt s r hr =>
      left
      rw [List.cons_append, buildChildren_txt]
    | seg d inner rest2 hd hi hr =>
      have hlen2 : inner.length + rest2.length + 2 ≤ n + 1 := by
        simp only [List.length_append, List.length_cons] at hlen
        omega
      have hstream : ((Event.opn d :: inner) ++ Event.cls d :: rest2) ++ rest =
          Event.opn d :: (inner ++ (Event.cls d :: (rest2 ++ rest))) := by
        simp [List.append_assoc]
      rw [hstream]
      cases fuel with
      | zero => left; rfl
      | succ fuel =>
        rw [buildChildren_opn]
        have hfrom : buildFrom fuel d (inner ++ (Event.cls d :: (rest2 ++ rest))) = none ∨
            ∃ child, spanKid child ∧
              buildFrom fuel d (inner ++ (Event.cls d :: (rest2 ++ rest))) =
                some (child, rest2 ++ rest) := by
          cases hmk : mkElem d with
          | none =>
            left
            unfold buildFrom
            rw [hmk]
          | some pr =>
            obtain ⟨tg2, attrs2⟩ := pr
            have htg2p : tg2 ≠ "p" := mkElem_tag_not_p d tg2 attrs2 hd.1 hmk
            obtain ⟨htg2h, htg2dt⟩ := mkElem_inline_not_hdt d tg2 attrs2 hd hmk
            have hgen : ∀ (t1 : Option (List Char)) (inner1 : List Event),
                SpanF inner1 → inner1.length ≤ n →
                buildChildren fuel tg2 attrs2 t1 []
                    (inner1 ++ (Event.cls d :: (rest2 ++ rest))) = none ∨
                ∃ child, spanKid child ∧
                  buildChildren fuel tg2 attrs2 t1 []
                      (inner1 ++ (Event.cls d :: (rest2 ++ rest))) =
                    some (child, rest2 ++ rest) := by
              intro t1 inner1 hsp1 hlen1
              rcases ih inner1 hlen1 hsp1 fuel tg2 attrs2 t1 []
                  (Event.cls d :: (rest2 ++ rest))
                  (by intro s r he; cases he) with hnone | ⟨f3, acc3, hkids, hne3, heq⟩
              · left
                exact hnone
              · right
                refine ⟨finalize tg2 attrs2 t1 acc3, ?_, ?_⟩
                · rw [finalize_not_hdt tg2 attrs2 t1 acc3 htg2h htg2dt]
                  refine ⟨?_, ?_, ?_⟩
                  · simp only [xHasP]
                    rw [Bool.or_eq_false_iff]
                    refine ⟨by simp [htg2p], ?_⟩
                    rw [xListHasP_false]
                    intro k hk
                    exact (hkids k hk).1
                  · simp only [noNestedP]
                    rw [Bool.and_eq_true]
                    refine ⟨by rw [if_neg htg2p], ?_⟩
                    rw [noNestedPList_all]
                    intro k hk
                    exact (hkids k hk).2.1
                  · simp only [everyPInkOrChild]
                    rw [Bool.and_eq_true]
                    refine ⟨by rw [if_neg htg2p], ?_⟩
                    rw [everyPInkOrChildList_all]
                    intro k hk
                    exact (hkids k hk).2.2
                · rw [heq, List.nil_append, buildChildren_cls]
            have hK : ∃ t1 inner1, SpanF inner1 ∧ inner1.length ≤ n ∧
                buildFrom fuel d (inner ++ (Event.cls d :: (rest2 ++ rest))) =
                  buildChildren fuel tg2 attrs2 t1 []
                    (inner1 ++ (Event.cls d :: (rest2 ++ rest))) := by
              cases hin : inner with
              | nil =>
                refine ⟨none, [], SpanF.nil, by simp, ?_⟩
                unfold buildFrom
                rw [hmk]
                rfl
              | cons e inner2 =>
                cases e with
                | txt s2 =>
                  refine ⟨some s2, inner2, SpanF_txt_inv inner hi s2 inner2 hin,
                    by rw [hin] at hlen2; simp at hlen2; omega, ?_⟩
                  unfold buildFrom
                  rw [hmk]
                  rfl
                | opn e2 =>
                  refine ⟨none, Event.opn e2 :: inner2, by rw [← hin]; exact hi,
                    by rw [hin] at hlen2; simp at hlen2; simp; omega, ?_⟩
                  unfold buildFrom
                  rw [hmk]
                  rfl
                | cls e2 =>
                  refine ⟨none, Event.cls e2 :: inner2, by rw [← hin]; exact hi,
                    by rw [hin] at hlen2; simp at hlen2; simp; omega, ?_⟩
                  unfold buildFrom
                  rw [hmk]
                  rfl
            obtain ⟨t1, inner1, hsp1, hlen1, hKeq⟩ := hK
            rcases hgen t1 inner1 hsp1 hlen1 with h1 | ⟨child, hck, h1⟩
            · left
              rw [hKeq]
              exact h1
            · right
              exact ⟨child, hck, by rw [hKeq]; exact h1⟩
        rcases hfrom with hnone | ⟨child, hck, hsome⟩
        · left
          rw [hnone]
        · rw [hsome]
          dsimp only
          cases hr2 : rest2 with
          | nil =>
            cases hrr : rest with
            | nil =>
              right
              refine ⟨fuel, [child], ?_, fun _ => by simp, ?_⟩
              · intro k hk
                rw [List.mem_singleton] at hk
                rw [hk]
                exact hck
              · rfl
            | cons e2 r2 =>
              cases e2 with
              | txt s3 => exact absurd rfl (hrr ▸ hrest s3 r2)
              | opn e3 =>
                right
                refine ⟨fuel, [child], ?_, fun _ => by simp, ?_⟩
                · intro k hk
                  rw [List.mem_singleton] at hk
                  rw [hk]
                  exact hck
                · rfl
              | cls e3 =>
                right
                refine ⟨fuel, [child], ?_, fun _ => by simp, ?_⟩
                · intro k hk
                  rw [List.mem_singleton] at hk
                  rw [hk]
                  exact hck
                · rfl
          | cons e2 r2 =>
            have hlenr2 : r2.length ≤ n := by
              rw [hr2] at hlen2
              simp at hlen2
              omega
            cases e2 with
            | txt s3 =>
              have hspr2 : SpanF r2 := SpanF_txt_inv rest2 hr s3 r2 hr2
              rw [List.cons_append]
              dsimp only
              rcases ih r2 hlenr2 hspr2 fuel tg attrs t0
                  (acc ++ [child.withTail (some s3)]) rest hrest with
                hnone2 | ⟨f4, acc4, hk4, hne4, heq4⟩
              · left
                exact hnone2
              · right
                refine ⟨f4, child.withTail (some s3) :: acc4, ?_, fun _ => by simp, ?_⟩
                · intro k hk
                  rcases List.mem_cons.mp hk with hk | hk
                  · rw [hk]
                    exact spanKid_withTail child (some s3) hck
                  · exact hk4 k hk
                · rw [heq4, List.append_assoc]
                  rfl
            | opn e3 =>
              rw [List.cons_append]
              dsimp only
              rcases ih (Event.opn e3 :: r2)
                  (by rw [hr2] at hlen2; simp at hlen2 ⊢; omega)
                  (by rw [← hr2]; exact hr) fuel tg attrs t0
                  (acc ++ [child]) rest hrest with
                hnone2 | ⟨f4, acc4, hk4, hne4, heq4⟩
              · left
                exact hnone2
              · right
                refine ⟨f4, child :: acc4, ?_, fun _ => by simp, ?_⟩
                · intro k hk
                  rcases List.mem_cons.mp hk with hk | hk
                  · rw [hk]
                    exact hck
                  · exact hk4 k hk
                · rw [List.cons_append] at heq4
                  rw [heq4, List.append_assoc]
                  rfl
            | cls e3 =>
              rw [List.cons_append]
              dsimp only
              rcases ih (Event.cls e3 :: r2)
                  (by rw [hr2] at hlen2; simp at hlen2 ⊢; omega)
                  (by rw [← hr2]; exact hr) fuel tg attrs t0
                  (acc ++ [child]) rest hrest with
                hnone2 | ⟨f4, acc4, hk4, hne4, heq4⟩
              · left
                exact hnone2
              · right
                refine ⟨f4, child :: acc4, ?_, fun _ => by simp, ?_⟩
                · intro k hk
                  rcases List.mem_cons.mp hk with hk | hk
                  · rw [hk]
                    exact hck
                  · exact hk4 k hk
                · rw [List.cons_append] at heq4
                  rw [heq4, List.append_assoc]
                  rfl


theorem GoodF_notTxtHead (evs : List Event) (h : GoodF evs) : notTxtHead evs := by
  induction h with
  | nil =>
    intro s r he
    cases he
  | para b rest hb hrest ih =>
    cases hb with
    | empty =>
      intro s r he
      exact ih s r (by simpa using he)
    | para p q ievs hp hq hsp hw =>
      intro s r he
      rw [List.cons_append, List.cons_append] at he
      cases he
  | block d inner rest hd hi hr ihi ihr =>
    intro s r he
    rw [List.cons_append] at he
    cases he

theorem structural_ne_p (t : String) (h : isStructural t = true) : t ≠ "p" := by
  intro hp
  rw [hp] at h
  exact absurd h (by decide)

theorem goodKid_finalize (tg : String) (attrs : List (String × String))
    (t0 : Option (List Char)) (kids : List XNode) (htg : tg ≠ "p")
    (h : ∀ k ∈ kids, goodKid k) : goodKid (finalize tg attrs t0 kids) := by
  cases kids with
  | nil =>
    constructor <;>
      simp [finalize, noNestedP, everyPInkOrChild, noNestedPList,
        everyPInkOrChildList, htg]
  | cons k ks =>
    unfold finalize
    dsimp only
    by_cases hhdt : tg = "h" ∨ tg = "dt"
    · rw [if_pos hhdt]
      have hk := h k (List.mem_cons_self k ks)
      refine ⟨?_, ?_⟩
      · simp only [noNestedP]
        rw [Bool.and_eq_true]
        exact ⟨by rw [if_neg htg], noNestedP_children k hk.1⟩
      · simp only [everyPInkOrChild]
        rw [Bool.and_eq_true]
        exact ⟨by rw [if_neg htg], everyPInkOrChild_children k hk.2⟩
    · rw [if_neg hhdt]
      refine ⟨?_, ?_⟩
      · simp only [noNestedP]
        rw [Bool.and_eq_true]
        refine ⟨by rw [if_neg htg], ?_⟩
        rw [noNestedPList_all]
        intro u hu
        exact (h u hu).1
      · simp only [everyPInkOrChild]
        rw [Bool.and_eq_true]
        refine ⟨by rw [if_neg htg], ?_⟩
        rw [everyPInkOrChildList_all]
        intro u hu
        exact (h u hu).2


theorem notTxtHead_append (a b : List Event) (ha : notTxtHead a) (hb : notTxtHead b) :
    notTxtHead (a ++ b) := by
  intro s r he
  cases a with
  | nil => exact hb s r (by simpa using he)
  | cons e a2 =>
    rw [List.cons_append] at he
    injection he with h1 h2
    exact ha s a2 (by rw [h1])

theorem buildChildren_good (evs : List Event) (hevs : GoodF evs) :
    ∀ (fuel : Nat) (tg : String) (attrs : List (String × String))
      (t0 : Option (List Char)) (acc : List XNode) (rest : List Event),
      notTxtHead rest →
      buildChildren fuel tg attrs t0 acc (evs ++ rest) = none ∨
      ∃ fuel2 acc2, (∀ k ∈ acc2, goodKid k) ∧
        buildChildren fuel tg attrs t0 acc (evs ++ rest) =
          buildChildren fuel2 tg attrs t0 (acc ++ acc2) rest := by
  induction hevs with
  | nil =>
    intro fuel tg attrs t0 acc rest hrest
    right
    exact ⟨fuel, [], by simp, by simp⟩
  | para b restG hb hrestG ih =>
    intro fuel tg attrs t0 acc rest hrest
    cases hb with
    | empty =>
      rcases ih fuel tg attrs t0 acc rest hrest with h1 | ⟨f2, a2, hk2, heq⟩
      · left
        simpa using h1
      · right
        refine ⟨f2, a2, hk2, ?_⟩
        simpa using heq
    | para p q ievs hp hq hsp hw =>
      have hstream : (((Event.opn p :: ievs) ++ [Event.cls q]) ++ restG) ++ rest =
          Event.opn p :: (ievs ++ (Event.cls q :: (restG ++ rest))) := by
        simp [List.append_assoc]
      rw [hstream]
      cases fuel with
      | zero => left; rfl
      | succ fuel =>
        rw [buildChildren_opn]
        have hrtx : notTxtHead (Event.cls q :: (restG ++ rest)) := by
          intro s r he
          cases he
        have hfrom : buildFrom fuel p (ievs ++ (Event.cls q :: (restG ++ rest))) = none ∨
            ∃ child, goodKid child ∧
              buildFrom fuel p (ievs ++ (Event.cls q :: (restG ++ rest))) =
                some (child, restG ++ rest) := by
          rcases hw with ⟨d0, hd0⟩ | ⟨s0, hievs, c0, hc0m, hc0w⟩
          · have hK : ∃ t1 inner1, SpanF inner1 ∧ (∃ d2, Event.opn d2 ∈ inner1) ∧
                buildFrom fuel p (ievs ++ (Event.cls q :: (restG ++ rest))) =
                  buildChildren fuel "p" [] t1 []
                    (inner1 ++ (Event.cls q :: (restG ++ rest))) := by
              cases hin : ievs with
              | nil =>
                rw [hin] at hd0
                simp at hd0
              | cons e ievs2 =>
                cases e with
                | txt s2 =>
                  refine ⟨some s2, ievs2, SpanF_txt_inv ievs hsp s2 ievs2 hin, ?_, ?_⟩
                  · rw [hin] at hd0
                    rcases List.mem_cons.mp hd0 with h2 | h2
                    · cases h2
                    · exact ⟨d0, h2⟩
                  · unfold buildFrom
                    rw [mkElem_p p hp]
                    rfl
                | opn e2 =>
                  refine ⟨none, Event.opn e2 :: ievs2, by rw [← hin]; exact hsp,
                    ⟨e2, List.mem_cons_self _ _⟩, ?_⟩
                  unfold buildFrom
                  rw [mkElem_p p hp]
                  rfl
                | cls e2 =>
                  refine ⟨none, Event.cls e2 :: ievs2, by rw [← hin]; exact hsp,
                    ?_, ?_⟩
                  · rw [hin] at hd0
                    exact ⟨d0, hd0⟩
                  · unfold buildFrom
                    rw [mkElem_p p hp]
                    rfl
            obtain ⟨t1, inner1, hsp1, hopn1, hKeq⟩ := hK
            rcases buildChildren_span inner1.length inner1 (le_refl _) hsp1 fuel "p" []
                t1 [] (Event.cls q :: (restG ++ rest)) hrtx with
              h1 | ⟨f3, acc3, hk3, hne3, heq3⟩
            · left
              rw [hKeq]
              exact h1
            · right
              have hacc3 : acc3 ≠ [] := hne3 hopn1
              refine ⟨finalize "p" [] t1 acc3, ?_, ?_⟩
              · rw [finalize_not_hdt "p" [] t1 acc3 (by decide) (by decide)]
                constructor
                · simp only [noNestedP, if_true]
                  rw [Bool.and_eq_true]
                  constructor
                  · rw [Bool.not_eq_true']
                    rw [xListHasP_false]
                    intro k hk
                    exact (hk3 k hk).1
                  · rw [noNestedPList_all]
                    intro k hk
                    exact (hk3 k hk).2.1
                · simp only [everyPInkOrChild, if_true]
                  rw [Bool.and_eq_true]
                  constructor
                  · rw [Bool.or_eq_true]
                    right
                    rw [Bool.not_eq_true']
                    cases acc3 with
                    | nil => exact absurd rfl hacc3
                    | cons a3 as3 => rfl
                  · rw [everyPInkOrChildList_all]
                    intro k hk
                    exact (hk3 k hk).2.2
              · rw [hKeq, heq3, List.nil_append, buildChildren_cls]
          · subst hievs
            right
            have heqF : buildFrom fuel p
                ([Event.txt s0] ++ (Event.cls q :: (restG ++ rest))) =
                some (XNode.elem "p" [] (some s0) none [], restG ++ rest) := by
              unfold buildFrom
              rw [mkElem_p p hp]
              show buildChildren fuel "p" [] (some s0) []
                (Event.cls q :: (restG ++ rest)) = _
              rw [buildChildren_cls]
              rfl
            refine ⟨XNode.elem "p" [] (some s0) none [], ?_, heqF⟩
            constructor
            · simp [noNestedP, noNestedPList, xListHasP]
            · simp only [everyPInkOrChild, if_true]
              rw [Bool.and_eq_true]
              constructor
              · rw [Bool.or_eq_true]
                left
                simp only [hasInk, Option.getD]
                rw [List.any_eq_true]
                exact ⟨c0, hc0m, by rw [hc0w]; rfl⟩
              · rfl
        rcases hfrom with hnone | ⟨child, hck, hsome⟩
        · left
          rw [hnone]
        · rw [hsome]
          dsimp only
          cases hcat : restG ++ rest with
          | nil =>
            obtain ⟨hrg, hrs⟩ := List.append_eq_nil.mp hcat
            subst hrg
            subst hrs
            right
            refine ⟨fuel, [child], ?_, rfl⟩
            intro k hk
            rw [List.mem_singleton] at hk
            rw [hk]
            exact hck
          | cons e r2 =>
            cases e with
            | txt s3 =>
              exact absurd hcat
                (notTxtHead_append restG rest (GoodF_notTxtHead restG hrestG) hrest s3 r2)
            | opn e3 =>
              rcases ih fuel tg attrs t0 (acc ++ [child]) rest hrest with
                hnone2 | ⟨f4, acc4, hk4, heq4⟩
              · left
                rw [hcat] at hnone2
                exact hnone2
              · right
                refine ⟨f4, child :: acc4, ?_, ?_⟩
                · intro k hk
                  rcases List.mem_cons.mp hk with hk | hk
                  · rw [hk]
                    exact hck
                  · exact hk4 k hk
                · rw [hcat] at heq4
                  rw [heq4, List.append_assoc]
                  rfl
            | cls e3 =>
              rcases ih fuel tg attrs t0 (acc ++ [child]) rest hrest with
                hnone2 | ⟨f4, acc4, hk4, heq4⟩
              · left
                rw [hcat] at hnone2
                exact hnone2
              · right
                refine ⟨f4, child :: acc4, ?_, ?_⟩
                · intro k hk
                  rcases List.mem_cons.mp hk with hk | hk
                  · rw [hk]
                    exact hck
                  · exact hk4 k hk
                · rw [hcat] at heq4
                  rw [heq4, List.append_assoc]
                  rfl
  | block d inner restG hds hinner hrestG ihi ihr =>
    intro fuel tg attrs t0 acc rest hrest
    have hstream : ((Event.opn d :: inner) ++ (Event.cls d :: restG)) ++ rest =
        Event.opn d :: (inner ++ (Event.cls d :: (restG ++ rest))) := by
      simp [List.append_assoc]
    rw [hstream]
    cases fuel with
    | zero => left; rfl
    | succ fuel =>
      rw [buildChildren_opn]
      have hrtx : notTxtHead (Event.cls d :: (restG ++ rest)) := by
        intro s r he
        cases he
      have hfrom : buildFrom fuel d (inner ++ (Event.cls d :: (restG ++ rest))) = none ∨
          ∃ child, goodKid child ∧
            buildFrom fuel d (inner ++ (Event.cls d :: (restG ++ rest))) =
              some (child, restG ++ rest) := by
        cases hmk : mkElem d with
        | none =>
          left
          unfold buildFrom
          rw [hmk]
        | some pr =>
          obtain ⟨tg2, attrs2⟩ := pr
          have htg2p : tg2 ≠ "p" :=
            mkElem_tag_not_p d tg2 attrs2 (structural_ne_p d.tag hds) hmk
          have hKeq : buildFrom fuel d (inner ++ (Event.cls d :: (restG ++ rest))) =
              buildChildren fuel tg2 attrs2 none []
                (inner ++ (Event.cls d :: (restG ++ rest))) := by
            cases hin : inner with
            | nil =>
              unfold buildFrom
              rw [hmk]
              rfl
            | cons e inner2 =>
              cases e with
              | txt s2 => exact absurd hin (GoodF_notTxtHead inner hinner s2 inner2)
              | opn e2 =>
                unfold buildFrom
                rw [hmk]
                rfl
              | cls e2 =>
                unfold buildFrom
                rw [hmk]
                rfl
          rcases ihi fuel tg2 attrs2 none [] (Event.cls d :: (restG ++ rest)) hrtx with
            h1 | ⟨f3, acc3, hk3, heq3⟩
          · left
            rw [hKeq]
            exact h1
          · right
            refine ⟨finalize tg2 attrs2 none acc3,
              goodKid_finalize tg2 attrs2 none acc3 htg2p hk3, ?_⟩
            rw [hKeq, heq3, List.nil_append, buildChildren_cls]
      rcases hfrom with hnone | ⟨child, hck, hsome⟩
      · left
        rw [hnone]
      · rw [hsome]
        dsimp only
        cases hcat : restG ++ rest with
        | nil =>
          obtain ⟨hrg, hrs⟩ := List.append_eq_nil.mp hcat
          subst hrg
          subst hrs
          right
          refine ⟨fuel, [child], ?_, rfl⟩
          intro k hk
          rw [List.mem_singleton] at hk
          rw [hk]
          exact hck
        | cons e r2 =>
          cases e with
          | txt s3 =>
            exact absurd hcat
              (notTxtHead_append restG rest (GoodF_notTxtHead restG hrestG) hrest s3 r2)
          | opn e3 =>
            rcases ihr fuel tg attrs t0 (acc ++ [child]) rest hrest with
              hnone2 | ⟨f4, acc4, hk4, heq4⟩
            · left
              rw [hcat] at hnone2
              exact hnone2
            · right
              refine ⟨f4, child :: acc4, ?_, ?_⟩
              · intro k hk
                rcases List.mem_cons.mp hk with hk | hk
                · rw [hk]
                  exact hck
                · exact hk4 k hk
              · rw [hcat] at heq4
                rw [heq4, List.append_assoc]
                rfl
          | cls e3 =>
            rcases ihr fuel tg attrs t0 (acc ++ [child]) rest hrest with
              hnone2 | ⟨f4, acc4, hk4, heq4⟩
            · left
              rw [hcat] at hnone2
              exact hnone2
            · right
              refine ⟨f4, child :: acc4, ?_, ?_⟩
              · intro k hk
                rcases List.mem_cons.mp hk with hk | hk
                · rw [hk]
                  exact hck
                · exact hk4 k hk
              · rw [hcat] at heq4
                rw [heq4, List.append_assoc]
                rfl


theorem clean_flatten_good (content : List Tree)
    (h : blocksAtBlockPositionsList content = true) :
    ∃ out, clean (flatten [Tree.node { tag := "p" } content]) = some out ∧
      GoodF out := by
  obtain ⟨buf2, out2, hcl, hsp2, hgd2⟩ :=
    cleanList content { tag := "p" } [] [] h rfl SpanF.nil
  have e2 : cleanRun (CState.inP { tag := "p" } buf2)
      [Event.cls ({ tag := "p" } : NodeData)] =
      (CState.outside, accept { tag := "p" } buf2 { tag := "p" } ++ []) :=
    cleanRun_step_then _ _ _ _ _ _ _
      (cleanStep_clsP { tag := "p" } buf2 { tag := "p" } rfl) rfl
  have e1 := cleanRun_append_then _ _ _ _ _ _ _ hcl e2
  have e0 := cleanRun_step_then _ _ _ _ _ _ _
    (cleanStep_opnP_out { tag := "p" } rfl) e1
  have hstream : flatten [Tree.node { tag := "p" } content] =
      Event.opn { tag := "p" } ::
        (flattenList [{ tag := "p" }] content ++
          [Event.cls ({ tag := "p" } : NodeData)]) := by
    simp [flatten, flattenList, flattenTree, closeTop, reopenTop]
  refine ⟨[] ++ (out2 ++ (accept { tag := "p" } buf2 { tag := "p" } ++ [])), ?_, ?_⟩
  · unfold clean
    rw [hstream, e0]
  · exact GoodF_append _ _ GoodF.nil (GoodF_append _ _ hgd2
      (GoodF_append _ _ (PBlockF_GoodF _ (accept_block _ _ rfl rfl buf2 hsp2)) GoodF.nil))

theorem stripLicense_preds (tg : String) (a : List (String × String))
    (t tl : Option (List Char)) (kids : List XNode) (htg : tg ≠ "p")
    (h1 : noNestedPList kids = true) (h2 : everyPInkOrChildList kids = true) :
    noNestedP (stripLicense (XNode.elem tg a t tl kids)) = true ∧
      everyPInkOrChild (stripLicense (XNode.elem tg a t tl kids)) = true := by
  have hcases : ∃ kids2 : List XNode, (∀ k ∈ kids2, k ∈ kids) ∧
      stripLicense (XNode.elem tg a t tl kids) = XNode.elem tg a t tl kids2 := by
    unfold stripLicense
    dsimp only
    cases hlast : kids.getLast? with
    | none =>
      exact ⟨kids, fun k hk => hk, rfl⟩
    | some last =>
      dsimp only
      by_cases hcond : last.tagOf = "p" ∧ (last.textOf.getD []) ≠ [] ∧
          startsWithText (last.textOf.getD []) licenseText
      · rw [if_pos hcond]
        exact ⟨kids.dropLast, fun k hk => (List.dropLast_sublist kids).subset hk, rfl⟩
      · rw [if_neg hcond]
        exact ⟨kids, fun k hk => hk, rfl⟩
  obtain ⟨kids2, hsub, heq⟩ := hcases
  rw [heq]
  constructor
  · simp only [noNestedP, Bool.and_eq_true]
    refine ⟨by rw [if_neg htg], ?_⟩
    rw [noNestedPList_all] at h1 ⊢
    exact fun k hk => h1 k (hsub k hk)
  · simp only [everyPInkOrChild, Bool.and_eq_true]
    refine ⟨by rw [if_neg htg], ?_⟩
    rw [everyPInkOrChildList_all] at h2 ⊢
    exact fun k hk => h2 k (hsub k hk)

theorem encode_good (url title : String) (seq : List Event) (hseq : GoodF seq)
    (x : XNode) (hx : encode url title seq = some x) :
    noNestedP x = true ∧ everyPInkOrChild x = true := by
  unfold encode at hx
  dsimp only at hx
  have hKeq : buildFrom (seq.length + 2)
      { tag := "root", title := some title, url := url }
      (seq ++ [Event.cls { tag := "root", title := some title, url := url }]) =
      buildChildren (seq.length + 2) "article" [("title", title), ("url", url)] none []
        (seq ++ [Event.cls { tag := "root", title := some title, url := url }]) := by
    cases hin : seq with
    | nil => rfl
    | cons e seq2 =>
      cases e with
      | txt s2 => exact absurd hin (GoodF_notTxtHead seq hseq s2 seq2)
      | opn e2 => rfl
      | cls e2 => rfl
  rcases buildChildren_good seq hseq (seq.length + 2) "article"
      [("title", title), ("url", url)] none []
      [Event.cls { tag := "root", title := some title, url := url }]
      (by intro s r he; cases he) with hnone | ⟨f2, acc2, hk2, heq2⟩
  · rw [hKeq, hnone] at hx
    simp at hx
  · rw [hKeq, heq2, List.nil_append, buildChildren_cls] at hx
    simp only [Option.bind_eq_bind, Option.some_bind, Option.some.injEq] at hx
    rw [finalize_not_hdt "article" [("title", title), ("url", url)] none acc2
      (by decide) (by decide)] at hx
    rw [Option.pure_def, Option.some.injEq] at hx
    rw [← hx]
    exact stripLicense_preds "article" [("title", title), ("url", url)] none none acc2
      (by decide)
      ((noNestedPList_all acc2).mpr (fun k hk => (hk2 k hk).1))
      ((everyPInkOrChildList_all acc2).mpr (fun k hk => (hk2 k hk).2))


/-- C1 counterexample: the pipeline applied to a paragraph whose link
contains a div (decoded as a paragraph nested in the link) emits XML with a
p element inside a p element. -/
theorem nested_p_counterexample :
    (parseFromHtml "u" "t" exNestedHtml).map noNestedP = some false := by rfl

/-- C1 (amended): for every article whose decoded content places paragraph
and structural nodes only at block positions (never inside a formatting,
link or other inline element), the XML tree produced by flatten, clean and
encode contains no p element nested, directly or transitively, inside
another p element. -/
theorem parse_no_nested_p (url title : String) (content : List Tree) (x : XNode)
    (hb : blocksAtBlockPositionsList content = true)
    (hx : parseArticle url title content = some x) : noNestedP x = true := by
  unfold parseArticle at hx
  dsimp only at hx
  obtain ⟨out, hclean, hgood⟩ := clean_flatten_good content hb
  rw [hclean] at hx
  simp only [Option.bind_eq_bind, Option.some_bind] at hx
  exact (encode_good url title out hgood x hx).1

/-- Witness for parse_no_nested_p on a one-text article. -/
theorem parse_no_nested_p_witness :
    blocksAtBlockPositionsList [Tree.text ['x']] = true ∧
      parseArticle "u" "t" [Tree.text ['x']] =
        some (XNode.elem "article" [("title", "t"), ("url", "u")] none none
          [XNode.elem "p" [] (some ['x']) none []]) ∧
      noNestedP (XNode.elem "article" [("title", "t"), ("url", "u")] none none
        [XNode.elem "p" [] (some ['x']) none []]) = true :=
  ⟨by decide, by rfl, parse_no_nested_p "u" "t" [Tree.text ['x']]
    (XNode.elem "article" [("title", "t"), ("url", "u")] none none
      [XNode.elem "p" [] (some ['x']) none []]) (by decide) (by rfl)⟩

/-- C2 counterexample: an article holding one paragraph whose only content
is a br element is emitted as a p with no text at all: the literal claim
that every emitted p holds a non-whitespace character fails. -/
theorem p_ink_counterexample :
    (parseFromHtml "u" "t" exBrHtml).map everyPHasInkText = some false := by rfl

/-- C2 (amended): for every article whose decoded content places paragraph
and structural nodes only at block positions, every p element emitted by
the pipeline either holds a non-whitespace character in its own text or
has at least one child element. -/
theorem parse_p_ink_or_child (url title : String) (content : List Tree) (x : XNode)
    (hb : blocksAtBlockPositionsList content = true)
    (hx : parseArticle url title content = some x) : everyPInkOrChild x = true := by
  unfold parseArticle at hx
  dsimp only at hx
  obtain ⟨out, hclean, hgood⟩ := clean_flatten_good content hb
  rw [hclean] at hx
  simp only [Option.bind_eq_bind, Option.some_bind] at hx
  exact (encode_good url title out hgood x hx).2

/-- Witness for parse_p_ink_or_child on the br-only paragraph: the emitted
p has no text but keeps its br child. -/
theorem parse_p_ink_or_child_witness :
    blocksAtBlockPositionsList exBrContent = true ∧
      parseArticle "u" "t" exBrContent =
        some (XNode.elem "article" [("title", "t"), ("url", "u")] none none
          [XNode.elem "p" [] none none [XNode.elem "br" [] none none []]]) ∧
      everyPInkOrChild (XNode.elem "article" [("title", "t"), ("url", "u")] none none
        [XNode.elem "p" [] none none [XNode.elem "br" [] none none []]]) = true :=
  ⟨by decide, by rfl, parse_p_ink_or_child "u" "t" exBrContent
    (XNode.elem "article" [("title", "t"), ("url", "u")] none none
      [XNode.elem "p" [] none none [XNode.elem "br" [] none none []]])
    (by decide) (by rfl)⟩

/-- C6 counterexample: a header whose single child is a list (not a
paragraph) still has that child inlined: the h element adopts the ul
element's text and li children and the ul wrapper disappears, with no
condition on the child being a p. -/
theorem header_inline_counterexample :
    parseArticle "u" "t" exHeaderUlContent =
      some (XNode.elem "article" [("title", "t"), ("url", "u")] none none
        [XNode.elem "h" [("level", "2")] none none
          [XNode.elem "li" [] none none [XNode.elem "p" [] (some ['z']) none []]]]) := by
  rfl

/-- C6 (amended): during encoding an h or dt element with at least one
child adopts the text and children of its first child, whatever that
child's tag is, dropping the remaining children; and the Hello World
article produces the h element with level 2 and text Hello World. -/
theorem header_inlining_amended (tg : String) (attrs : List (String × String))
    (t0 : Option (List Char)) (k : XNode) (ks : List XNode)
    (h : tg = "h" ∨ tg = "dt") :
    finalize tg attrs t0 (k :: ks) =
      XNode.elem tg attrs (XNode.textOf k) none (XNode.childrenOf k) ∧
    parseFromHtml "u" "t" exHelloHtml =
      some (XNode.elem "article" [("title", "t"), ("url", "u")] none none
        [XNode.elem "h" [("level", "2")]
          (some ['H', 'e', 'l', 'l', 'o', ' ', 'W', 'o', 'r', 'l', 'd']) none []]) := by
  constructor
  · unfold finalize
    dsimp only
    rw [if_pos h]
  · rfl

/-- Witness for header_inlining_amended: an h whose first child is a ul
adopts the ul's children. -/
theorem header_inlining_amended_witness :
    ("h" = "h" ∨ "h" = "dt") ∧
      (finalize "h" [("level", "2")] none
          [XNode.elem "ul" [] none none [XNode.elem "li" [] none none []]] =
        XNode.elem "h" [("level", "2")] none none
          [XNode.elem "li" [] none none []] ∧
        parseFromHtml "u" "t" exHelloHtml =
          some (XNode.elem "article" [("title", "t"), ("url", "u")] none none
            [XNode.elem "h" [("level", "2")]
              (some ['H', 'e', 'l', 'l', 'o', ' ', 'W', 'o', 'r', 'l', 'd']) none []])) :=
  ⟨Or.inl rfl, header_inlining_amended "h" [("level", "2")] none
    (XNode.elem "ul" [] none none [XNode.elem "li" [] none none []]) [] (Or.inl rfl)⟩

end WT
